import Mathlib

/-!
Verification of the ability-text compiler in
`scripts/convert_cockatrice_to_forge_advanced_2.py` (the "advanced 2"
Cockatrice-to-Forge card converter).

All definitions are shallow embeddings of the Python source.  Strings are
modelled as `List Char`; Python string operations (`in`, `startswith`,
`strip()`, `lower()`, `replace`, `split`) are translated to executable list
functions, and every regular expression the source uses is implemented as a
dedicated matcher that follows the CPython `re` backtracking semantics of
that particular pattern (leftmost match, greedy/lazy quantifiers, ordered
alternation, `$` also matching before a final newline).  `\s`, `\d`, `\w`,
`[A-Z]` and `str.lower` are modelled over their ASCII ranges.

The mutable parser object state (`ability_lines`, `svar_lines`,
`svar_counter`) is threaded explicitly through a `PState` record.  Emitted
ability lines additionally carry, next to the exact rendered string, the
list of support-variable names that the line's `Execute$`/`Choices$`
arguments were instantiated with at construction time, and emitted SVar
lines carry their defined name next to the rendered `SVar:<name>:<body>`
string; this instrumentation only records which names flowed into the
f-strings and does not alter the rendered output.
-/

set_option maxRecDepth 400000

namespace Mtg

/-- Characters matched by Python `\s` and stripped by `str.strip()` (ASCII range). -/
def isPySpace (c : Char) : Bool :=
  c == ' ' || c == '\t' || c == '\n' || c == '\x0d' || c == '\x0b' || c == '\x0c'

/-- Python `str.lower` on one character (ASCII letters, as the source's keyword checks need). -/
def pyLower (c : Char) : Char := c.toLower

/-- Python `str.lower()`. -/
def lowerStr (s : List Char) : List Char := s.map pyLower

/-- Python `str.strip()`. -/
def pyStrip (s : List Char) : List Char :=
  ((s.dropWhile isPySpace).reverse.dropWhile isPySpace).reverse

/-- Python substring containment `pat in s`. -/
def containsSub : List Char → List Char → Bool
  | [], pat => pat.isEmpty
  | c :: t, pat => pat.isPrefixOf (c :: t) || containsSub t pat

/-- Fuel-driven loop of `replaceSub`; the fuel is an upper bound on the number of
scanning steps, so that the function is structurally recursive and reduces in
the kernel.  Each step consumes at least one character, so `s.length` fuel is
always enough. -/
def replaceSubGo (pat rep : List Char) : Nat → List Char → List Char
  | 0, s => s
  | _ + 1, [] => []
  | fuel + 1, c :: t =>
    if pat.isPrefixOf (c :: t) then
      rep ++ replaceSubGo pat rep fuel ((c :: t).drop pat.length)
    else
      c :: replaceSubGo pat rep fuel t

/-- Python `s.replace(pat, rep)` (left-to-right, non-overlapping); the source only
calls it with nonempty `pat`, and for empty `pat` we return `s` unchanged. -/
def replaceSub (pat rep : List Char) (s : List Char) : List Char :=
  if pat = [] then s else replaceSubGo pat rep s.length s

/-- Fuel-driven loop for Python `s.split(sep)`: `acc` is the current piece,
reversed.  `s.length` fuel is always enough. -/
def splitOnSubGo (sep : List Char) : Nat → List Char → List Char → List (List Char)
  | 0, acc, s => [acc.reverse ++ s]
  | fuel + 1, acc, s =>
    if sep.isPrefixOf s then
      acc.reverse :: splitOnSubGo sep fuel [] (s.drop sep.length)
    else
      match s with
      | [] => [acc.reverse]
      | c :: t => splitOnSubGo sep fuel (c :: acc) t

/-- Python `s.split(sep)` for nonempty `sep`. -/
def splitOnSub (s sep : List Char) : List (List Char) :=
  if sep = [] then [s] else splitOnSubGo sep (s.length + 1) [] s

/-- Length of the maximal leading run of `\s` characters. -/
def wsCount (s : List Char) : Nat := (s.takeWhile isPySpace).length

/-- Python `sep.join(parts)`. -/
def joinWith (sep : List Char) : List (List Char) → List Char
  | [] => []
  | [x] => x
  | x :: y :: t => x ++ sep ++ joinWith sep (y :: t)

/-- Fuel-driven loop of `collapseWs`. -/
def collapseWsGo : Nat → List Char → List Char
  | 0, s => s
  | _ + 1, [] => []
  | fuel + 1, c :: t =>
    if isPySpace c then ' ' :: collapseWsGo fuel (t.dropWhile isPySpace)
    else c :: collapseWsGo fuel t

/-- Python `re.sub(r'\s+', ' ', s)`: each maximal whitespace run becomes one space. -/
def collapseWs (s : List Char) : List Char := collapseWsGo s.length s

/-- Character list of Python `f"{n}"` for a natural number (decimal digits). -/
def natChars (n : Nat) : List Char := (Nat.repr n).data

/-- Numeric value of a decimal digit character. -/
def digitVal (c : Char) : Nat := c.toNat - '0'.toNat

/-- Decimal value of a digit string (used only to prove facts about `natChars`). -/
def decimalVal (s : List Char) : Nat := s.foldl (fun x c => 10 * x + digitVal c) 0

/-- The four fixed base names the allocator is called with outside the per-choice loop. -/
def refBases : List (List Char) :=
  ["Effect".data, "CharmEffect".data, "UpkeepEffect".data, "Choices".data]

/-- Base name used for modal choice variables (`f'Choice{index}'` = this ++ the index digits). -/
def choiceBase : List Char := "Choice".data

/-! ### Matchers for the individual regular expressions used by the source

Each matcher implements exactly one pattern from the Python file, following
CPython `re` backtracking semantics for that pattern. -/

/-- Lazy tail `(.+?)(?:\.|$)` with `re.DOTALL`: the shortest nonempty capture whose
next character is `.`; failing that, `$` lets the capture run to the end of the
string, or to just before one final newline. -/
def lazyBodyDotAll (t : List Char) : Option (List Char) :=
  match t with
  | [] => none
  | _ :: rest =>
    match rest.findIdx? (fun d => d == '.') with
    | some j0 => some (t.take (j0 + 1))
    | none =>
      if t.length ≥ 2 && t.getLast? == some '\n' then some t.dropLast
      else some t

/-- Lazy tail `(.+?)(?:\.|$)` without `re.DOTALL`: as `lazyBodyDotAll`, except the
capture may not cross a newline. -/
def lazyBodyNoNL (t : List Char) : Option (List Char) :=
  match t with
  | [] => none
  | _ :: rest =>
    let m := (t.findIdx? (fun d => d == '\n')).getD t.length
    let dotCase : Option (List Char) :=
      match rest.findIdx? (fun d => d == '.') with
      | some j0 => if j0 + 1 ≤ m then some (t.take (j0 + 1)) else none
      | none => none
    match dotCase with
    | some g => some g
    | none =>
      if t.length ≥ 2 && t.getLast? == some '\n' && m == t.length - 1 then some t.dropLast
      else if m == t.length then some t
      else none

/-- Greedy `\s+` backtracking before `(.+?)(?:\.|$)` (DOTALL), trying runs of
length `w`, `w-1`, …, `1`. -/
def plusWsBodyDotAll : Nat → List Char → Option (List Char)
  | 0, _ => none
  | w + 1, t =>
    match lazyBodyDotAll (t.drop (w + 1)) with
    | some g => some g
    | none => plusWsBodyDotAll w t

/-- Greedy `\s*` backtracking before `(.+?)(?:\.|$)` (DOTALL), trying runs of
length `w`, `w-1`, …, `0`. -/
def starWsBodyDotAll : Nat → List Char → Option (List Char)
  | 0, t => lazyBodyDotAll t
  | w + 1, t =>
    match lazyBodyDotAll (t.drop (w + 1)) with
    | some g => some g
    | none => starWsBodyDotAll w t

/-- Greedy `\s*` backtracking before `(.+?)(?:\.|$)` (no DOTALL). -/
def starWsBodyNoNL : Nat → List Char → Option (List Char)
  | 0, t => lazyBodyNoNL t
  | w + 1, t =>
    match lazyBodyNoNL (t.drop (w + 1)) with
    | some g => some g
    | none => starWsBodyNoNL w t

/-- Scanning loop of `group1Comma`: `preRev` holds the characters already passed
over (reversed), so a nonempty `preRev` means the comma candidate is at index
`≥ 1`. -/
def group1CommaGo (preRev : List Char) : List Char → Option (List Char × List Char)
  | [] => none
  | c :: rest =>
    if c == ',' && !preRev.isEmpty then
      match plusWsBodyDotAll (wsCount rest) rest with
      | some g2 => some (preRev.reverse, g2)
      | none => group1CommaGo (c :: preRev) rest
    else group1CommaGo (c :: preRev) rest

/-- Lazy group-1 of `(.+?),\s+(.+?)(?:\.|$)` (DOTALL): try each comma position in
ascending order (group 1 needs at least one character before it) and run the
after-comma continuation there. -/
def group1Comma (u : List Char) : Option (List Char × List Char) :=
  group1CommaGo [] u

/-- Backtracking over the first `\s+` of `kw\s+(.+?),\s+(.+?)(?:\.|$)`. -/
def plusWsGroups : Nat → List Char → Option (List Char × List Char)
  | 0, _ => none
  | w + 1, rest =>
    match group1Comma (rest.drop (w + 1)) with
    | some r => some r
    | none => plusWsGroups w rest

/-- `re.match(kw + r'\s+(.+?),\s+(.+?)(?:\.|$)', s, re.DOTALL)` for a literal `kw`
(the source uses `Whenever` and `When`). -/
def matchKwTrigger (kw : List Char) (s : List Char) : Option (List Char × List Char) :=
  if kw.isPrefixOf s then
    let rest := s.drop kw.length
    plusWsGroups (wsCount rest) rest
  else none

/-- `re.match(r'At the beginning of (.+?),\s+(.+?)(?:\.|$)', s, re.DOTALL)`. -/
def matchBeginning (s : List Char) : Option (List Char × List Char) :=
  if "At the beginning of ".data.isPrefixOf s then
    group1Comma (s.drop ("At the beginning of ".data.length))
  else none

/-- `re.search(r'Upkeep[—:]\s*(.+?)(?:\.|$)', s)` (no DOTALL): scan start positions
left to right. -/
def searchUpkeep : List Char → Option (List Char)
  | [] => none
  | c :: t =>
    let hit : Option (List Char) :=
      if "Upkeep—".data.isPrefixOf (c :: t) || "Upkeep:".data.isPrefixOf (c :: t) then
        let tail := (c :: t).drop 7
        starWsBodyNoNL (wsCount tail) tail
      else none
    match hit with
    | some g => some g
    | none => searchUpkeep t

/-- `[A-Z]` of the block splitter's lookahead. -/
def isUpperAZ (c : Char) : Bool := 'A' ≤ c && c ≤ 'Z'

/-- Scanning loop of `activatedTest` over the characters after the leading `{`;
`ge1` records that at least one character of `.+?` has been passed, and the
scan stops at the first newline (the lazy `.+?` cannot cross it, `re.DOTALL`
not being set on this pattern). -/
def activatedTestGo : Bool → List Char → Bool
  | _, [] => false
  | ge1, c :: rest =>
    if ge1 && c == '}' && (match rest with | ':' :: _ => true | _ => false) then true
    else if c == '\n' then false
    else activatedTestGo true rest

/-- `bool(re.match(r'^\{.+?\}:', s))` (no DOTALL): the dispatch test for activated
abilities.  True iff some `}` at index `j ≥ 2` is followed by `:` with only
non-newline characters strictly between the leading `{` and that `}`. -/
def activatedTest (s : List Char) : Bool :=
  match s with
  | '{' :: rest => activatedTestGo false rest
  | _ => false

/-- Scanning loop of `matchActivated` over the characters after the leading `{`;
`preRev` holds the inner characters already passed (reversed). -/
def matchActivatedGo (preRev : List Char) : List Char → Option (List Char × List Char)
  | [] => none
  | c :: rest =>
    if c == '}' && (match rest with | ':' :: _ => true | _ => false) && !preRev.isEmpty then
      let tail := rest.drop 1
      match starWsBodyDotAll (wsCount tail) tail with
      | some g2 => some ('{' :: (preRev.reverse ++ ['}']), g2)
      | none => matchActivatedGo (c :: preRev) rest
    else matchActivatedGo (c :: preRev) rest

/-- `re.match(r'^(\{.+?\}):\s*(.+?)(?:\.|$)', s, re.DOTALL)`: lazy group 1 tries
each `}` followed by `:` in ascending order (with a nonempty inner `.+?`, which
under `re.DOTALL` may contain anything); the continuation is `\s*` plus the
lazy body, and on its failure the next `}:` candidate is tried. -/
def matchActivated (s : List Char) : Option (List Char × List Char) :=
  match s with
  | '{' :: rest => matchActivatedGo [] rest
  | _ => none

/-- ASCII `\w`. -/
def isWordChar (c : Char) : Bool := c.isAlphanum || c == '_'

/-- The alternation `(?:one|two|up to \w+)` tried at a position (in order). -/
def modalAltOk (v : List Char) : Bool :=
  "one".data.isPrefixOf v || "two".data.isPrefixOf v ||
    ("up to ".data.isPrefixOf v &&
      match v.drop 6 with
      | d :: _ => isWordChar d
      | [] => false)

/-- Scanning loop of `modalSplit`: `preRev` holds the group-1 candidate
(reversed); stops at the earliest position where `Choose ` plus the alternation
matches. -/
def modalSplitGo (preRev : List Char) (s : List Char) : Option (List Char × List Char) :=
  if "Choose ".data.isPrefixOf s && modalAltOk (s.drop 7) then
    let g2 := if s.getLast? == some '\n' then s.dropLast else s
    some (preRev.reverse, g2)
  else
    match s with
    | [] => none
    | c :: rest => modalSplitGo (c :: preRev) rest

/-- `re.match(r'^(.*?)(Choose (?:one|two|up to \w+).*?)$', s, re.DOTALL)`:
returns `(group1, group2)`.  Lazy group 1 means the earliest position where
`Choose ` plus the alternation matches; lazy `.*?$` means group 2 stops just
before a final newline when there is one, else at the end. -/
def modalSplit (s : List Char) : Option (List Char × List Char) :=
  modalSplitGo [] s

/-- Lookahead `(?=\n[•\-]|\n\n|$)` of the modal-choice pattern, applied to the rest
of the string after the candidate capture. -/
def bulletLookahead (u : List Char) : Bool :=
  match u with
  | '\n' :: d :: _ => d == '•' || d == '-' || d == '\n'
  | [] => true
  | ['\n'] => true
  | _ => false

/-- Scanning loop for the capture end: the smallest `k` at or beyond the current
counter whose lookahead succeeds, where `u = t.drop k`.  Since
`bulletLookahead [] = true`, the scan always stops by the end of the list. -/
def findChoiceEndGo (k : Nat) (u : List Char) : Option Nat :=
  if bulletLookahead u then some k
  else
    match u with
    | [] => none
    | _ :: v => findChoiceEndGo (k + 1) v

/-- Smallest capture end `k ≥ 1` whose lookahead succeeds (none iff `t` is empty,
the lazy `.+?` needing at least one character). -/
def findChoiceEnd (t : List Char) : Option Nat :=
  match t with
  | [] => none
  | _ :: v => findChoiceEndGo 1 v

/-- Scanning loop of `findChoices`: the first argument is the number of already
matched characters still to be skipped before scanning resumes. -/
def findChoicesGo : Nat → List Char → List (List Char)
  | _ + 1, [] => []
  | n + 1, _ :: t => findChoicesGo n t
  | 0, [] => []
  | 0, c :: t =>
    if c == '•' || c == '-' then
      let w := wsCount t
      let t2 := t.drop w
      match findChoiceEnd t2 with
      | some k => t2.take k :: findChoicesGo (w + k) t
      | none =>
        if w ≥ 1 then [t.drop (w - 1)]
        else findChoicesGo 0 t
    else findChoicesGo 0 t

/-- `re.findall(r'[•\-]\s*(.+?)(?=\n[•\-]|\n\n|$)', s, re.DOTALL)`: scan left to
right; on a bullet, `\s*` is greedy but backtracks one character when it would
leave the lazy nonempty capture with nothing to match. -/
def findChoices (s : List Char) : List (List Char) := findChoicesGo 0 s

/-- One group `([\+\-]\d+)` plus the rest after it. -/
def signDigits (u : List Char) : Option (List Char × List Char) :=
  match u with
  | c :: t =>
    if c == '+' || c == '-' then
      let d := t.takeWhile Char.isDigit
      if d.isEmpty then none else some (c :: d, t.drop d.length)
    else none
  | [] => none

/-- Tail `\s+([\+\-]\d+)/([\+\-]\d+)` of the pump pattern after `gets?`. -/
def pumpAt (u : List Char) : Option (List Char × List Char) :=
  let w := wsCount u
  if w = 0 then none
  else
    match signDigits (u.drop w) with
    | some (g1, r1) =>
      match r1 with
      | '/' :: r2 =>
        match signDigits r2 with
        | some (g2, _) => some (g1, g2)
        | none => none
      | _ => none
    | none => none

/-- `re.search(r'gets?\s+([\+\-]\d+)/([\+\-]\d+)', s)`: the optional `s` is greedy,
so the variant with `s` is tried first at each position. -/
def pumpSearch : List Char → Option (List Char × List Char)
  | [] => none
  | c :: t =>
    let here : Option (List Char × List Char) :=
      if "get".data.isPrefixOf (c :: t) then
        let afterGet := (c :: t).drop 3
        match afterGet with
        | 's' :: u =>
          match pumpAt u with
          | some r => some r
          | none => pumpAt afterGet
        | _ => pumpAt afterGet
      else none
    match here with
    | some r => some r
    | none => pumpSearch t

/-- One attempt of `(\d+)` or `(\d+)\s+kw` at the current position: a maximal
nonempty run of digits (`u.takeWhile Char.isDigit`), followed (when `kw` is
nonempty) by at least one whitespace character and the literal `kw` (checked on
`u.drop run.length`, the rest after the run). -/
def numAt (u : List Char) (kw : List Char) : Option (List Char) :=
  if (u.takeWhile Char.isDigit).isEmpty then none
  else if kw.isEmpty then some (u.takeWhile Char.isDigit)
  else
    if decide (1 ≤ wsCount (u.drop (u.takeWhile Char.isDigit).length)) &&
        kw.isPrefixOf ((u.drop (u.takeWhile Char.isDigit).length).drop
          (wsCount (u.drop (u.takeWhile Char.isDigit).length))) then
      some (u.takeWhile Char.isDigit)
    else none

/-- `re.search(pattern, s)` for `pattern = r'(\d+)'` (empty `kw`) or
`rf'(\d+)\s+{kw}'`, as built by `_extract_number`. -/
def searchNumKw : List Char → List Char → Option (List Char)
  | [], _ => none
  | c :: t, kw =>
    match numAt (c :: t) kw with
    | some d => some d
    | none => searchNumKw t kw

/-- `re.sub(r'^(whenever|when)\s+', '', l)`: ordered alternation, whole-match
removal; when neither alternative is followed by whitespace the string is
unchanged. -/
def stripTrigPrefix (l : List Char) : List Char :=
  if "whenever".data.isPrefixOf l && decide (1 ≤ wsCount (l.drop 8)) then
    (l.drop 8).drop (wsCount (l.drop 8))
  else if "when".data.isPrefixOf l && decide (1 ≤ wsCount (l.drop 4)) then
    (l.drop 4).drop (wsCount (l.drop 4))
  else l

/-! ### Translation of the source functions -/

/-- `escape_forge_text`: escape newlines to a literal backslash-n sequence and
replace em dashes by hyphens. -/
def escapeForgeText (t : List Char) : List Char :=
  if t = [] then []
  else replaceSub "—".data "-".data (replaceSub "\n".data "\\n".data t)

/-- Mana symbols recognised by `parse_mana_cost`. -/
def wubrg (c : Char) : Bool := c == 'W' || c == 'U' || c == 'B' || c == 'R' || c == 'G'

/-- Scanning loop of `parse_mana_cost` (indices become pattern matches on the
remaining characters; the first branch needs a character at `i + 2` to exist). -/
def parseManaCostGo : List Char → List (List Char)
  | [] => []
  | [c1] => if wubrg c1 || c1.isDigit then [[c1]] else []
  | [c1, c2] =>
    if wubrg c1 || c1.isDigit then [c1] :: parseManaCostGo [c2]
    else parseManaCostGo [c2]
  | c1 :: c2 :: c3 :: rest =>
    if c1.isDigit && wubrg c2 && c3 == '/' then
      [c1] :: parseManaCostGo (c2 :: c3 :: rest)
    else if wubrg c1 && c2 == '/' && wubrg c3 then
      [c1, c2, c3] :: parseManaCostGo rest
    else if wubrg c1 || c1.isDigit then
      [c1] :: parseManaCostGo (c2 :: c3 :: rest)
    else parseManaCostGo (c2 :: c3 :: rest)

/-- `parse_mana_cost`. -/
def parseManaCost (s : List Char) : List Char :=
  if s = [] then [] else joinWith " ".data (parseManaCostGo s)

/-- `parse_card_type`. -/
def parseCardType (s : List Char) : List Char :=
  if s = [] then []
  else
    let t := collapseWs (pyStrip s)
    if containsSub t " - ".data then
      match splitOnSub t " - ".data with
      | [] => []
      | mainType :: restParts =>
        pyStrip mainType ++ " ".data ++ pyStrip (joinWith " ".data restParts)
    else t

/-- `_parse_cost`: strip, delete `{`, turn `}` into spaces, strip, collapse runs. -/
def parseCost (s : List Char) : List Char :=
  let s1 := pyStrip s
  let s2 := s1.filter (fun c => !(c == '{'))
  let s3 := s2.map (fun c => if c == '}' then ' ' else c)
  collapseWs (pyStrip s3)

/-- The HTML-entity decoding done by `convert_card` before emitting the oracle
text (`&apos;`, `&quot;`, `&amp;`, in that order). -/
def decodeEntities (t : List Char) : List Char :=
  replaceSub "&amp;".data "&".data
    (replaceSub "&quot;".data "\"".data
      (replaceSub "&apos;".data "\x27".data t))

/-- An emitted ability line: the rendered string together with the
support-variable names its `Execute$`/`Choices$` arguments were built from. -/
structure ALine where
  render : List Char
  refs : List (List Char)

/-- The mutable state of one `AbilityParser` object: `ability_lines`,
`svar_lines` (each SVar line keeps its defined name next to the rendered
string) and `svar_counter`. -/
structure PState where
  abilityLines : List ALine
  svarLines : List (List Char × List Char)
  svarCounter : Nat

/-- A freshly constructed `AbilityParser()`. -/
def initPState : PState := ⟨[], [], 0⟩

/-- `_get_next_svar_name`: increment the counter, then append its new value. -/
def allocName (st : PState) (base : List Char) : List Char × PState :=
  (base ++ natChars (st.svarCounter + 1), { st with svarCounter := st.svarCounter + 1 })

/-- `self.ability_lines.append(...)`. -/
def pushA (st : PState) (render : List Char) (refs : List (List Char)) : PState :=
  { st with abilityLines := st.abilityLines ++ [⟨render, refs⟩] }

/-- `self.svar_lines.append(f"SVar:{name}:{body}")`. -/
def pushS (st : PState) (name body : List Char) : PState :=
  { st with svarLines := st.svarLines ++ [(name, "SVar:".data ++ name ++ ":".data ++ body)] }

/-- `_extract_number`. -/
def extractNumber (text kw : List Char) : List Char :=
  match searchNumKw text kw with
  | some d => d
  | none =>
    let lower := lowerStr text
    if containsSub lower "a ".data || containsSub lower "one ".data then "1".data
    else if containsSub lower "two ".data then "2".data
    else if containsSub lower "three ".data then "3".data
    else "1".data

/-- The `counter_types` table of `_extract_counter_type` (insertion order). -/
def counterTypesTable : List (List Char × List Char) :=
  [("+1/+1".data, "P1P1".data), ("-1/-1".data, "M1M1".data),
   ("drunken".data, "DRUNKEN".data), ("stun".data, "STUN".data),
   ("obsession".data, "OBSESSION".data), ("charge".data, "CHARGE".data),
   ("loyalty".data, "LOYALTY".data), ("haze".data, "HAZE".data),
   ("lost family".data, "LOST_FAMILY".data)]

/-- `_extract_counter_type`. -/
def extractCounterType (text : List Char) : List Char :=
  match counterTypesTable.findSome?
      (fun p => if containsSub (lowerStr text) p.1 then some p.2 else none) with
  | some t => t
  | none => "GENERIC".data

/-- `_parse_effect_to_ability`: the ordered keyword table of the effect resolver. -/
def parseEffectToAbility (text : List Char) : Option (List Char) :=
  let lower := pyStrip (lowerStr text)
  if containsSub lower "you gain".data && containsSub lower "life".data then
    some ("GainLife | Defined$ You | LifeAmount$ ".data ++ extractNumber text "life".data)
  else if containsSub lower "loses".data && containsSub lower "life".data &&
      containsSub lower "opponent".data then
    some ("LoseLife | Defined$ EachOpponent | LifeAmount$ ".data ++ extractNumber text "life".data)
  else if containsSub lower "loses".data && containsSub lower "life".data then
    some ("LoseLife | Defined$ You | LifeAmount$ ".data ++ extractNumber text "life".data)
  else if containsSub lower "draw".data then
    some ("Draw | Defined$ You | NumCards$ ".data ++ extractNumber text "card".data)
  else if containsSub lower "deals".data && containsSub lower "damage".data then
    let num := extractNumber text "damage".data
    if containsSub lower "target".data then
      some ("DealDamage | NumDmg$ ".data ++ num ++
        " | ValidTgts$ Creature.Other,Player | TgtPrompt$ Select target".data)
    else
      some ("DealDamage | NumDmg$ ".data ++ num ++ " | Defined$ TriggeredPlayer".data)
  else if containsSub lower "create".data && containsSub lower "token".data then
    let amount := extractNumber text "token".data
    if containsSub lower "food".data then
      some ("Token | TokenScript$ food | TokenAmount$ ".data ++ amount)
    else if containsSub lower "treasure".data then
      some ("Token | TokenScript$ treasure | TokenAmount$ ".data ++ amount)
    else if containsSub lower "beer".data then
      some ("Token | TokenScript$ beer | TokenAmount$ ".data ++ amount)
    else if containsSub lower "gnome".data then
      some ("Token | TokenScript$ gnome | TokenAmount$ ".data ++ amount)
    else if containsSub lower "goblin".data then
      some ("Token | TokenScript$ goblin | TokenAmount$ ".data ++ amount)
    else some ("Token | TokenScript$ generic | TokenAmount$ ".data ++ amount)
  else if containsSub lower "discard".data then
    if containsSub lower "target opponent".data then
      some "Discard | Mode$ TgtChoose | NumCards$ 1 | ValidTgts$ Player.Opponent".data
    else some "Discard | Mode$ TgtChoose | NumCards$ 1".data
  else if containsSub lower "mill".data then
    some ("Mill | NumCards$ ".data ++ extractNumber text "card".data ++ " | Defined$ You".data)
  else if containsSub lower "counter".data && containsSub lower "spell".data then
    some "Counter | Destination$ Hand".data
  else if containsSub lower "tap".data && containsSub lower "target".data then
    some "Tap | ValidTgts$ Creature | TgtPrompt$ Select target creature".data
  else if containsSub lower "untap".data then
    some "Untap | ValidTgts$ Permanent | TgtPrompt$ Select target permanent".data
  else if containsSub lower "scry".data then
    some ("Scry | ScryNum$ ".data ++ extractNumber text [])
  else if containsSub lower "surveil".data then
    some ("Surveil | NumCards$ ".data ++ extractNumber text [])
  else if containsSub lower "put".data && containsSub lower "counter".data then
    some ("PutCounter | CounterType$ ".data ++ extractCounterType text ++
      " | CounterNum$ ".data ++ extractNumber text "counter".data ++ " | Defined$ Targeted".data)
  else if containsSub lower "sacrifice".data then
    if containsSub lower "creature".data then some "Sacrifice | SacValid$ Creature".data
    else some "Sacrifice | SacValid$ Card".data
  else if containsSub lower "search".data && containsSub lower "library".data then
    some ("ChangeZone | Origin$ Library | Destination$ Hand".data ++
      " | ChangeType$ Card | ChangeNum$ 1 | Mandatory$ False".data)
  else if containsSub lower "return".data && containsSub lower "graveyard".data &&
      containsSub lower "battlefield".data then
    some "ChangeZone | Origin$ Graveyard | Destination$ Battlefield | ChangeType$ Creature".data
  else none

/-- `_extract_trigger`. -/
def extractTrigger (trigText : List Char) : Option (List Char) :=
  let lower := lowerStr trigText
  let fromWhen : Option (List Char) :=
    if containsSub lower "whenever".data || containsSub lower "when".data then
      let clean := stripTrigPrefix lower
      if containsSub clean "enters the battlefield".data then
        some ("Mode$ ChangesZone | Destination$ Battlefield".data ++
          " | ValidCard$ Card.Self | TriggerZones$ Battlefield".data)
      else if containsSub clean "dies".data || containsSub clean "put into a graveyard".data then
        some ("Mode$ ChangesZone | Origin$ Battlefield | Destination$ Graveyard".data ++
          " | ValidCard$ Card.Self | TriggerZones$ Graveyard".data)
      else if containsSub clean "attacks".data then
        some "Mode$ Attacks | ValidCard$ Card.Self | TriggerZones$ Battlefield".data
      else if containsSub clean "discards".data &&
          (containsSub clean "you".data || containsSub clean "opponent".data) then
        some "Mode$ Discard | TriggerZones$ Battlefield".data
      else if containsSub clean "creature".data &&
          (containsSub clean "enters".data || containsSub clean "etb".data) then
        some "Mode$ ChangesZone | Destination$ Battlefield | TriggerZones$ Battlefield".data
      else if containsSub clean "cast".data then
        some "Mode$ SpellCast | ValidCard$ Card.YouOwn | TriggerZones$ Battlefield".data
      else if containsSub clean "taps".data || containsSub clean "tapped".data then
        some "Mode$ Taps | TriggerZones$ Battlefield".data
      else if containsSub clean "sacrifice".data then
        some "Mode$ ChangesZone | Destination$ Graveyard | TriggerZones$ Graveyard".data
      else none
    else none
  match fromWhen with
  | some r => some r
  | none =>
    if containsSub lower "beginning of".data || containsSub lower "upkeep".data ||
        containsSub lower "end of".data then
      if containsSub lower "upkeep".data then some "Mode$ Phase | Phase$ Upkeep".data
      else if containsSub lower "combat".data then some "Mode$ Phase | Phase$ BeginCombat".data
      else if containsSub lower "end step".data || containsSub lower "end of turn".data then
        some "Mode$ Phase | Phase$ EndOfTurn".data
      else none
    else none

/-- `_parse_whenever_ability` and `_parse_when_ability` (they differ only in the
literal keyword of the regex and of the rebuilt trigger text). -/
def parseTriggerAbility (kw : List Char) (st : PState) (t : List Char) : PState :=
  match matchKwTrigger kw t with
  | none => st
  | some (g1, g2) =>
    let trigText := pyStrip g1
    let effText := pyStrip g2
    match extractTrigger (kw ++ " ".data ++ trigText) with
    | none => st
    | some trigLine =>
      let (svarName, st1) := allocName st "Effect".data
      match parseEffectToAbility effText with
      | none => st1
      | some effect =>
        let st2 := pushS st1 svarName effect
        pushA st2 ("T:".data ++ trigLine ++ " | Execute$ ".data ++ svarName ++
          " | TriggerDescription$ ".data ++ t.take 80) [svarName]

/-- `_parse_whenever_ability`. -/
def parseWheneverAbility (st : PState) (t : List Char) : PState :=
  parseTriggerAbility "Whenever".data st t

/-- `_parse_when_ability`. -/
def parseWhenAbility (st : PState) (t : List Char) : PState :=
  parseTriggerAbility "When".data st t

/-- The `phase_map` dictionary of `_parse_beginning_ability` (insertion order). -/
def phaseMap : List (List Char × List Char) :=
  [("upkeep".data, "Upkeep".data), ("your upkeep".data, "Upkeep".data),
   ("combat".data, "BeginCombat".data), ("your end step".data, "EndOfTurn".data),
   ("end step".data, "EndOfTurn".data), ("each upkeep".data, "Upkeep".data),
   ("your next upkeep".data, "Upkeep".data)]

/-- `_parse_beginning_ability`. -/
def parseBeginningAbility (st : PState) (t : List Char) : PState :=
  match matchBeginning t with
  | none => st
  | some (g1, g2) =>
    let timing := lowerStr (pyStrip g1)
    let effText := pyStrip g2
    match phaseMap.findSome? (fun p => if containsSub timing p.1 then some p.2 else none) with
    | none => st
    | some phase =>
      let (svarName, st1) := allocName st "Effect".data
      match parseEffectToAbility effText with
      | none => st1
      | some effect =>
        let st2 := pushS st1 svarName effect
        pushA st2 ("T:Mode$ Phase | Phase$ ".data ++ phase ++ " | Execute$ ".data ++ svarName ++
          " | TriggerDescription$ ".data ++ t.take 80) [svarName]

/-- `_parse_upkeep_ability`. -/
def parseUpkeepAbility (st : PState) (t : List Char) : PState :=
  match searchUpkeep t with
  | none => st
  | some g1 =>
    let costText := pyStrip g1
    let (svarName, st1) := allocName st "UpkeepEffect".data
    match parseEffectToAbility costText with
    | none => st1
    | some effect =>
      let st2 := pushS st1 svarName effect
      pushA st2 ("T:Mode$ Phase | Phase$ Upkeep | TriggerZones$ Battlefield | Execute$ ".data ++
        svarName ++ " | TriggerDescription$ Upkeep— ".data ++ costText) [svarName]

/-- `_parse_activated_ability`. -/
def parseActivatedAbility (st : PState) (t : List Char) : PState :=
  match matchActivated t with
  | none => st
  | some (costStr, g2) =>
    let effText := pyStrip g2
    let cost := parseCost costStr
    match parseEffectToAbility effText with
    | none => st
    | some effect =>
      if cost = [] then st
      else
        pushA st ("A:AB$ ".data ++ effect ++ " | Cost$ ".data ++ cost ++
          " | SpellDescription$ ".data ++ t.take 100) []

/-- `_parse_pump_static`. -/
def parsePumpStatic (st : PState) (t : List Char) : PState :=
  match pumpSearch t with
  | none => st
  | some (power, tough) =>
    let affected :=
      if containsSub t "creatures you control".data then "Creature.YouCtrl".data
      else if containsSub t "creature".data && containsSub t "you control".data then
        "Creature.YouCtrl".data
      else if containsSub t "creature you control".data then "Creature.YouCtrl".data
      else "Card".data
    let duration :=
      if containsSub t "until end of turn".data then "EndOfTurn".data else "Permanent".data
    pushA st ("S:Mode$ Continuous | Affected$ ".data ++ affected ++ " | AddPower$ ".data ++ power ++
      " | AddToughness$ ".data ++ tough ++ " | Duration$ ".data ++ duration ++
      " | Description$ ".data ++ t) []

/-- The keyword list of `_parse_keyword_static`. -/
def staticGrantKeywords : List (List Char) :=
  ["vigilance".data, "flying".data, "trample".data, "haste".data, "first strike".data,
   "double strike".data, "indestructible".data, "hexproof".data, "shroud".data,
   "reach".data, "lifelink".data, "menace".data]

/-- `_parse_keyword_static`. -/
def parseKeywordStatic (st : PState) (t : List Char) : PState :=
  let found := staticGrantKeywords.filter (fun kw => containsSub (lowerStr t) kw)
  if found.isEmpty then st
  else
    let affected :=
      if containsSub t "creatures you control".data then "Creature.YouCtrl".data
      else "Card".data
    let duration :=
      if containsSub t "until end of turn".data then "EndOfTurn".data else "Permanent".data
    pushA st ("S:Mode$ Continuous | Affected$ ".data ++ affected ++ " | AddKeyword$ ".data ++
      joinWith " & ".data found ++ " | Duration$ ".data ++ duration ++
      " | Description$ ".data ++ t) []

/-- `_parse_restriction_static`. -/
def parseRestrictionStatic (st : PState) (t : List Char) : PState :=
  pushA st ("S:Mode$ Continuous | Description$ ".data ++ t) []

/-- `_parse_static_ability`. -/
def parseStaticAbility (st : PState) (t : List Char) : PState :=
  if containsSub t "gets ".data || containsSub t "get ".data then parsePumpStatic st t
  else if containsSub t "can\x27t".data || containsSub t "cannot".data then
    parseRestrictionStatic st t
  else if containsSub t "has ".data || containsSub t "have ".data then parseKeywordStatic st t
  else pushA st ("S:Mode$ Continuous | Description$ ".data ++ t) []

/-- `_parse_spell_effect`. -/
def parseSpellEffect (st : PState) (t : List Char) : PState :=
  match parseEffectToAbility t with
  | none => st
  | some effect =>
    pushA st ("A:SP$ ".data ++ effect ++ " | SpellDescription$ ".data ++ t.take 100) []

/-- `_extract_modal_choices`. -/
def extractModalChoices (choicesText : List Char) : List (List Char) :=
  let choices := findChoices choicesText
  let choices :=
    if choices.isEmpty then
      (splitOnSub choicesText "\n".data).filterMap (fun c =>
        let cs := pyStrip c
        if cs ≠ [] && !("Choose".data.isPrefixOf cs) then some cs else none)
    else choices
  (choices.map pyStrip).filter (fun c => c ≠ [])

/-- `_parse_modal_choice`: allocates the choice variable, then emits its SVar line
only when the effect resolves (the two source branches are textually identical). -/
def parseModalChoice (st : PState) (choiceText : List Char) (index : Nat) :
    List Char × PState :=
  let (choiceSvar, st1) := allocName st (choiceBase ++ natChars index)
  let ability :=
    if containsSub (lowerStr choiceText) "target".data then parseEffectToAbility choiceText
    else parseEffectToAbility choiceText
  match ability with
  | some ab => (choiceSvar, pushS st1 choiceSvar ab)
  | none => (choiceSvar, st1)

/-- The `for i, choice in enumerate(choices, 1)` loop of `_parse_modal_ability`. -/
def modalChoicesLoop (st : PState) (i : Nat) : List (List Char) → PState × List (List Char)
  | [] => (st, [])
  | c :: cs =>
    let (nm, st1) := parseModalChoice st c i
    let (stF, names) := modalChoicesLoop st1 (i + 1) cs
    (stF, nm :: names)

/-- `_parse_modal_ability`. -/
def parseModalAbility (st : PState) (t : List Char) : PState :=
  let pc :=
    match modalSplit t with
    | some (g1, g2) => (pyStrip g1, pyStrip g2)
    | none => (([] : List Char), t)
  let pfx := pc.1
  let choicesText := pc.2
  let choices := extractModalChoices choicesText
  if choices.isEmpty then parseSpellEffect st t
  else
    let charmNum := choices.length
    let (svarName, st1) := allocName st "Choices".data
    let lp := modalChoicesLoop st1 1 choices
    let st2 := lp.1
    let choiceSvars := lp.2
    let st3 := pushS st2 svarName (joinWith ",".data choiceSvars)
    if pfx ≠ [] && (containsSub pfx "Whenever".data || containsSub pfx "When".data ||
        containsSub pfx "At the beginning".data) then
      match extractTrigger pfx with
      | some trigLine =>
        let (svarExec, st4) := allocName st3 "CharmEffect".data
        let st5 := pushS st4 svarExec ("AB$ Charm | CharmNum$ ".data ++ natChars charmNum ++
          " | Choices$ ".data ++ svarName)
        pushA st5 ("T:".data ++ trigLine ++ " | Execute$ ".data ++ svarExec ++
          " | TriggerDescription$ ".data ++ t.take 80) [svarExec]
      | none => st3
    else
      pushA st3 ("A:SP$ Charm | CharmNum$ ".data ++ natChars charmNum ++ " | Choices$ ".data ++
        svarName ++ " | SpellDescription$ ".data ++ t.take 100) [svarName]

/-- The category a block is dispatched to by `_parse_ability_block`. -/
inductive AbilityKind where
  | modal | trigWhenever | trigWhen | periodic | upkeepCost | activated | staticAb | spellEffect
deriving DecidableEq

/-- The keyword set of the static-ability dispatch rule. -/
def staticKeywordTable : List (List Char) :=
  ["gets ".data, "have ".data, "has ".data, "can\x27t".data, "doesn\x27t".data,
   "is ".data, "are ".data]

/-- The ordered dispatch of `_parse_ability_block`, as the category it selects. -/
def classifyBlock (t : List Char) : AbilityKind :=
  if containsSub t "Choose".data && (containsSub t "—".data || containsSub t "-".data) then
    .modal
  else if "Whenever ".data.isPrefixOf t then .trigWhenever
  else if "When ".data.isPrefixOf t then .trigWhen
  else if "At the beginning of ".data.isPrefixOf t then .periodic
  else if containsSub t "Upkeep—".data || containsSub t "Upkeep:".data then .upkeepCost
  else if activatedTest t then .activated
  else if staticKeywordTable.any (fun kw => containsSub t kw) then .staticAb
  else .spellEffect

/-- `_parse_ability_block`. -/
def parseAbilityBlock (st : PState) (text : List Char) : PState :=
  let t := pyStrip text
  if t = [] then st
  else
    match classifyBlock t with
    | .modal => parseModalAbility st t
    | .trigWhenever => parseWheneverAbility st t
    | .trigWhen => parseWhenAbility st t
    | .periodic => parseBeginningAbility st t
    | .upkeepCost => parseUpkeepAbility st t
    | .activated => parseActivatedAbility st t
    | .staticAb => parseStaticAbility st t
    | .spellEffect => parseSpellEffect st t

/-- The line-break marker used by `_split_ability_blocks`. -/
def newlineMarker : List Char := " | NEWLINE | ".data

/-- The lookbehind class `[.!?]` of the block splitter. -/
def isSentEndChar (c : Char) : Bool := c == '.' || c == '!' || c == '?'

/-- One classified character of the text being split: part of the current block,
the first character of a separator (closing the current block), or a further
character of the current separator. -/
inductive SplitTok where
  | blockChar (c : Char)
  | sepStart (c : Char)
  | sepChar (c : Char)

/-- Structural scanning loop of `re.split(r'(?<=[.!?])\s+(?=[A-Z{])', text)`.
A match of the pattern is a maximal whitespace run whose preceding character is
in `[.!?]` and whose following character is in `[A-Z{]`: the greedy `\s+` only
succeeds on the full run, because backtracking would put a whitespace character
under the `[A-Z{]` lookahead, and no match can start inside a run, because the
lookbehind character would then be whitespace.  `inSep` records whether the
scanner is inside a run already decided to be a separator; `prev` is the
previous character (the lookbehind). -/
def splitTok : Bool → Option Char → List Char → List SplitTok
  | _, _, [] => []
  | false, prev, c :: rest =>
    if (match prev with | some p => isSentEndChar p | none => false) && isPySpace c
        && (match rest.dropWhile isPySpace with
            | d :: _ => isUpperAZ d || d == '{'
            | [] => false) then
      .sepStart c :: splitTok true (some c) rest
    else
      .blockChar c :: splitTok false (some c) rest
  | true, _, c :: rest =>
    if isPySpace c then
      .sepChar c :: splitTok true (some c) rest
    else
      .blockChar c :: splitTok false (some c) rest

/-- Assembles the token stream into the list of blocks and the list of consumed
separators.  `cur` is the current block reversed; `bs` and `ss` are the
finished blocks and separators, reversed, each separator itself reversed. -/
def splitAsm : List SplitTok → List Char → List (List Char) → List (List Char) →
    List (List Char) × List (List Char)
  | [], cur, bs, ss => ((cur.reverse :: bs).reverse, (ss.map List.reverse).reverse)
  | .blockChar c :: toks, cur, bs, ss => splitAsm toks (c :: cur) bs ss
  | .sepStart c :: toks, cur, bs, ss => splitAsm toks [] (cur.reverse :: bs) ([c] :: ss)
  | .sepChar c :: toks, cur, bs, ss =>
    match ss with
    | sep :: rest => splitAsm toks cur bs ((c :: sep) :: rest)
    | [] => splitAsm toks cur bs [[c]]

/-- `_split_ability_blocks` before marker restoration, with the whitespace
separators the split consumed. -/
def splitBlocksRaw (t : List Char) : List (List Char) × List (List Char) :=
  splitAsm (splitTok false none (replaceSub "\n".data newlineMarker t)) [] [] []

/-- `_split_ability_blocks`. -/
def splitAbilityBlocks (t : List Char) : List (List Char) :=
  (splitBlocksRaw t).1.map (replaceSub newlineMarker "\n".data)

/-- `parse_abilities`: on falsy text return empty lists without touching the
state; otherwise reset all three fields, split, parse each nonempty stripped
block, and return the two line lists.  The final parser state is also returned
so that the reset behaviour itself can be stated. -/
def parseAbilities (st : PState) (text : List Char) :
    PState × (List (List Char) × List (List Char)) :=
  if text = [] then (st, ([], []))
  else
    let t := pyStrip text
    let blocks := splitAbilityBlocks t
    let stF := blocks.foldl parseAbilityBlock initPState
    (stF, (stF.abilityLines.map ALine.render, stF.svarLines.map Prod.snd))

/-- A `<card>` element as `convert_card` reads it: each field is the stripped
`findtext` result, and `hasProp` tells whether the `<prop>` child exists. -/
structure CardElem where
  name : List Char
  hasProp : Bool
  manacost : List Char
  ctype : List Char
  pt : List Char
  loyalty : List Char
  text : List Char

/-- `convert_card`, as the list of output lines (the source returns them joined
with newlines); `none` models the `return None` on a nameless card. -/
def convertCardLines (card : CardElem) : Option (List (List Char)) :=
  let name := pyStrip card.name
  if name = [] then none
  else
    let headerTail : List (List Char) :=
      if card.hasProp then
        let manaCost := pyStrip card.manacost
        let manaLine :=
          if manaCost ≠ [] then ["ManaCost:".data ++ parseManaCost manaCost]
          else ["ManaCost:no cost".data]
        let typeLines :=
          let ct := pyStrip card.ctype
          if ct ≠ [] then ["Types:".data ++ parseCardType ct] else []
        let ptLines :=
          let pt := pyStrip card.pt
          if pt ≠ [] then ["PT:".data ++ pt] else []
        let loyLines :=
          let loy := pyStrip card.loyalty
          if loy ≠ [] then ["Loyalty:".data ++ loy] else []
        manaLine ++ typeLines ++ ptLines ++ loyLines
      else []
    let text := pyStrip card.text
    let parsed := parseAbilities initPState text
    let abilityLines := parsed.2.1
    let svarLines := parsed.2.2
    let oracleLine :=
      if text ≠ [] then "Oracle:".data ++ escapeForgeText (decodeEntities text)
      else "Oracle:".data
    some ((("Name:".data ++ name) :: headerTail) ++ abilityLines ++ svarLines ++ [oracleLine])

/-- `convert_card` joined to a single text block, as the source returns it. -/
def convertCard (card : CardElem) : Option (List Char) :=
  (convertCardLines card).map (joinWith "\n".data)

/-! ### Concrete inputs used by the claim theorems -/

/-- A modal block with eleven resolvable choices (`draw`): its eleventh choice
variable is named `Choice11` ++ `12` = `Choice1112`. -/
def c3Block1 : List Char :=
  "Choose one —".data ++ (List.replicate 10 "\n- draw".data).flatten ++ "\n- draw.".data

/-- Forty-nine one-choice modal blocks whose single choice (`x.`) never resolves:
each block advances the counter by two (aggregate plus choice) without emitting
a choice definition, moving the counter from 12 to 110. -/
def c3Filler : List Char := (List.replicate 49 "Choose one - x. ".data).flatten

/-- A modal block with one resolvable choice, reached at counter 111: its choice
variable is named `Choice1` ++ `112` = `Choice1112` again. -/
def c3Block3 : List Char := "Choose one —\n- draw.".data

/-- A single rules text whose compilation emits the SVar name `Choice1112`
twice. -/
def c3Text : List Char := c3Block1 ++ " ".data ++ c3Filler ++ c3Block3

/-- The rules text of the spec's attack-trigger scenario. -/
def c4Text : List Char := "Whenever this creature attacks, you gain 1 life.".data

/-- The single ability line that scenario compiles to. -/
def c4TLine : List Char :=
  ("T:Mode$ Attacks | ValidCard$ Card.Self | TriggerZones$ Battlefield" ++
    " | Execute$ Effect1 | TriggerDescription$ " ++
    "Whenever this creature attacks, you gain 1 life.").data

/-- The rules text of the spec's upkeep scenario. -/
def c5Text : List Char := "At the beginning of your upkeep, you lose 2 life.".data

/-- A rules text that really matches none of the classifier's keyword rules. -/
def c6Patternless : List Char := "Xyzzy gronkle blorp.".data

/-- The spec's chosen "unrecognizable" example, which in fact contains the static
keyword `is ` inside `This `. -/
def c6PieText : List Char := "This creature likes pie.".data

/-- A modal block whose first choice does not resolve. -/
def c1CexText : List Char := "Choose one —\n- xyzzy.\n- You gain 1 life.".data

/-- A card whose rules text contains an em dash. -/
def c10Card : CardElem := ⟨"A".data, false, [], [], [], [], "a—b".data⟩

/-- The ability categories named by the specification's classifier section. -/
inductive SpecCategory where
  | Modal | Triggered | Periodic | UpkeepCost | Activated | Static | SpellEffect
deriving DecidableEq

/-- Modelled from the spec: the classifier as an ordered decision list of
(predicate, category) rules, first match wins, `SpellEffect` otherwise.
The rules transcribe the spec's eight numbered clauses. -/
def specDecisionList : List ((List Char → Bool) × SpecCategory) :=
  [(fun t => containsSub t "Choose".data &&
      (containsSub t "—".data || containsSub t "-".data), .Modal),
   (fun t => "Whenever ".data.isPrefixOf t, .Triggered),
   (fun t => "When ".data.isPrefixOf t, .Triggered),
   (fun t => "At the beginning of ".data.isPrefixOf t, .Periodic),
   (fun t => containsSub t "Upkeep—".data || containsSub t "Upkeep:".data, .UpkeepCost),
   (fun t => activatedTest t, .Activated),
   (fun t => staticKeywordTable.any (fun kw => containsSub t kw), .Static)]

/-- Modelled from the spec: first matching rule of the ordered decision list,
with `SpellEffect` as the default. -/
def specClassify (t : List Char) : SpecCategory :=
  (specDecisionList.findSome? (fun pc => if pc.1 t then some pc.2 else none)).getD .SpellEffect

/-- The spec category each source dispatch target corresponds to (the source has
separate `Whenever`/`When` handlers; the spec calls both `Triggered`). -/
def kindToSpec : AbilityKind → SpecCategory
  | .modal => .Modal
  | .trigWhenever => .Triggered
  | .trigWhen => .Triggered
  | .periodic => .Periodic
  | .upkeepCost => .UpkeepCost
  | .activated => .Activated
  | .staticAb => .Static
  | .spellEffect => .SpellEffect

/-- Modelled from the claim's words: the first integer literal in a clause (the
maximal digit run starting at the first digit). -/
def firstIntLit : List Char → Option (List Char)
  | [] => none
  | c :: rest =>
    if c.isDigit then some (c :: rest.takeWhile Char.isDigit) else firstIntLit rest

/-- A life-gain clause whose first integer literal (3) is not the number next to
the kind keyword (5). -/
def c9Text : List Char := "if you control 3 creatures, you gain 5 life".data

/-- Modelled from the amended claim: the first integer literal that is
immediately followed by at least one whitespace character and the effect
kind's keyword — the first integer literal outright when the kind supplies no
keyword.  Scanning skips a failing digit run as a whole (positions inside a
run see the same continuation). -/
def firstKwNumber (kw : List Char) (t : List Char) : Option (List Char) :=
  match t with
  | [] => none
  | c :: rest =>
    if c.isDigit then
      if kw.isEmpty || (decide (1 ≤ wsCount (rest.dropWhile Char.isDigit)) &&
          kw.isPrefixOf ((rest.dropWhile Char.isDigit).drop
            (wsCount (rest.dropWhile Char.isDigit)))) then
        some (c :: rest.takeWhile Char.isDigit)
      else firstKwNumber kw (rest.dropWhile Char.isDigit)
    else firstKwNumber kw rest
termination_by t.length
decreasing_by
  all_goals simp only [List.length_cons]
  · exact Nat.lt_succ_of_le ((List.dropWhile_sublist Char.isDigit).length_le)
  · omega

/-- Modelled from the amended claim: keyword-anchored first integer, then the
word-number fallback `a `/`one ` ↦ 1, `two ` ↦ 2, `three ` ↦ 3, default 1. -/
def extractNumberSpec (text kw : List Char) : List Char :=
  match firstKwNumber kw text with
  | some d => d
  | none =>
    let lower := lowerStr text
    if containsSub lower "a ".data || containsSub lower "one ".data then "1".data
    else if containsSub lower "two ".data then "2".data
    else if containsSub lower "three ".data then "3".data
    else "1".data

/-- Interleaves the blocks produced by the splitter with the whitespace
separators that `re.split` consumed: block, separator, block, separator, ...
with the extra final block closing the text. -/
def joinInterleave : List (List Char) → List (List Char) → List Char
  | [], _ => []
  | b :: _, [] => b
  | b :: bs, s :: ss => b ++ s ++ joinInterleave bs ss

/-- Text already consumed by the split assembler, in input order: the finished
blocks interleaved with the finished separators, then the current block. -/
def accText (cur : List Char) (bs ss : List (List Char)) : List Char :=
  joinInterleave bs.reverse ((ss.map List.reverse).reverse) ++ cur.reverse

/-- How many `SVar:` lines of the state define the name `r`. -/
def nameCount (st : PState) (r : List Char) : Nat :=
  st.svarLines.countP (fun p => decide (p.1 = r))

/-- Every name the allocator can have produced by the time the counter is `c`:
a fixed base or a modal choice base, followed by the digits of a counter value
between 1 and `c`. -/
def NameShape (c : Nat) (n : List Char) : Prop :=
  ∃ k, 1 ≤ k ∧ k ≤ c ∧
    ((∃ b ∈ refBases, n = b ++ natChars k) ∨
      ∃ j, n = (choiceBase ++ natChars j) ++ natChars k)

/-- The shape of every name an ability line can reference: a fixed base
followed by the digits of a counter value between 1 and `c`. -/
def RefShape (c : Nat) (r : List Char) : Prop :=
  ∃ b ∈ refBases, ∃ k, 1 ≤ k ∧ k ≤ c ∧ r = b ++ natChars k

/-- The referential-integrity invariant of the parser state: every `SVar:` name
has allocator shape, and every name referenced from an ability line has
fixed-base shape and is defined by exactly one `SVar:` line. -/
def ParserInv (st : PState) : Prop :=
  (∀ p ∈ st.svarLines, NameShape st.svarCounter p.1) ∧
  (∀ a ∈ st.abilityLines, ∀ r ∈ a.refs,
    RefShape st.svarCounter r ∧ nameCount st r = 1)

theorem natChars_eq_toDigits (n : Nat) : natChars n = Nat.toDigits 10 n := rfl

theorem digitChar_isDigit (m : Nat) (h : m < 10) : (Nat.digitChar m).isDigit = true := by
  interval_cases m <;> decide

theorem digitVal_digitChar (m : Nat) (h : m < 10) : digitVal (Nat.digitChar m) = m := by
  interval_cases m <;> decide

theorem toDigitsCore_append (fuel n : Nat) (ds : List Char) :
    Nat.toDigitsCore 10 fuel n ds = Nat.toDigitsCore 10 fuel n [] ++ ds := by
  induction fuel generalizing n ds with
  | zero => simp [Nat.toDigitsCore]
  | succ f ih =>
    simp only [Nat.toDigitsCore]
    by_cases h : n / 10 = 0
    · simp [h]
    · rw [if_neg h, if_neg h, ih (n / 10) (Nat.digitChar (n % 10) :: ds),
        ih (n / 10) [Nat.digitChar (n % 10)], List.append_assoc]
      rfl

theorem toDigitsCore_digits (fuel n : Nat) (ds : List Char)
    (hds : ∀ c ∈ ds, c.isDigit = true) :
    ∀ c ∈ Nat.toDigitsCore 10 fuel n ds, c.isDigit = true := by
  induction fuel generalizing n ds with
  | zero => simpa [Nat.toDigitsCore] using hds
  | succ f ih =>
    intro c hc
    simp only [Nat.toDigitsCore] at hc
    have hd : ∀ x ∈ Nat.digitChar (n % 10) :: ds, x.isDigit = true := by
      intro x hx
      rcases List.mem_cons.mp hx with rfl | hx
      · exact digitChar_isDigit _ (Nat.mod_lt _ (by norm_num))
      · exact hds x hx
    by_cases h : n / 10 = 0
    · rw [if_pos h] at hc
      exact hd c hc
    · rw [if_neg h] at hc
      exact ih (n / 10) _ hd c hc

theorem toDigitsCore_val (fuel : Nat) :
    ∀ n, n < fuel → ∀ a : Nat,
      (Nat.toDigitsCore 10 fuel n []).foldl (fun x c => 10 * x + digitVal c) a
        = a * 10 ^ (Nat.toDigitsCore 10 fuel n []).length + n := by
  induction fuel with
  | zero => intro n h; omega
  | succ f ih =>
    intro n hn a
    simp only [Nat.toDigitsCore]
    by_cases h : n / 10 = 0
    · have hlt : n < 10 := by
        rcases Nat.lt_or_ge n 10 with hl | hg
        · exact hl
        · exact absurd h (by have := Nat.div_pos hg (by norm_num); omega)
      rw [if_pos h]
      have hmod : n % 10 = n := Nat.mod_eq_of_lt hlt
      simp only [List.foldl, List.length_cons, List.length_nil]
      rw [digitVal_digitChar (n % 10) (Nat.mod_lt _ (by norm_num)), hmod, pow_one]
      omega
    · have hge : 10 ≤ n := by
        rcases Nat.lt_or_ge n 10 with hl | hg
        · exact absurd (Nat.div_eq_of_lt hl) h
        · exact hg
      rw [if_neg h, toDigitsCore_append]
      rw [List.foldl_append]
      have hrec : n / 10 < f := by
        have h1 : n / 10 < n := Nat.div_lt_self (by omega) (by norm_num)
        omega
      rw [ih (n / 10) hrec a]
      simp only [List.foldl, List.length_append, List.length_cons, List.length_nil]
      rw [digitVal_digitChar (n % 10) (Nat.mod_lt _ (by norm_num))]
      have : 10 ^ ((Nat.toDigitsCore 10 f (n / 10) []).length + 1)
          = 10 ^ (Nat.toDigitsCore 10 f (n / 10) []).length * 10 := by
        rw [pow_succ]
      rw [this]
      have hdm := Nat.div_add_mod n 10
      ring_nf
      omega

theorem decimalVal_natChars (n : Nat) : decimalVal (natChars n) = n := by
  have h : natChars n = Nat.toDigitsCore 10 (n + 1) n [] := rfl
  rw [decimalVal, h, toDigitsCore_val (n + 1) n (Nat.lt_succ_self n) 0]
  simp

theorem natChars_inj {m n : Nat} (h : natChars m = natChars n) : m = n := by
  have hm := decimalVal_natChars m
  rw [h, decimalVal_natChars] at hm
  omega

theorem natChars_ne_nil (n : Nat) : natChars n ≠ [] := by
  show Nat.toDigitsCore 10 (n + 1) n [] ≠ []
  simp only [Nat.toDigitsCore]
  by_cases h : n / 10 = 0
  · simp [h]
  · rw [if_neg h, toDigitsCore_append]
    simp

theorem natChars_all_digit (n : Nat) : ∀ c ∈ natChars n, c.isDigit = true := by
  rw [natChars_eq_toDigits]
  exact toDigitsCore_digits (n + 1) n [] (by simp)

theorem natChars_head_digit (n : Nat) :
    ∃ c rest, natChars n = c :: rest ∧ c.isDigit = true := by
  rcases hx : natChars n with _ | ⟨c, rest⟩
  · exact absurd hx (natChars_ne_nil n)
  · exact ⟨c, rest, rfl, natChars_all_digit n c (by rw [hx]; exact List.mem_cons_self c rest)⟩

theorem ne_of_not_prefixes {b1 b2 x y : List Char} (h : b1 ++ x = b2 ++ y)
    (h1 : ¬ b1 <+: b2) (h2 : ¬ b2 <+: b1) : False := by
  rcases List.prefix_or_prefix_of_prefix (h ▸ List.prefix_append b1 x) (List.prefix_append b2 y)
    with hp | hp
  exacts [h1 hp, h2 hp]

/-- Two allocator names over the fixed bases agree only when base and counter agree. -/
theorem refBase_name_inj {b1 b2 : List Char} (h1 : b1 ∈ refBases) (h2 : b2 ∈ refBases)
    {k1 k2 : Nat} (h : b1 ++ natChars k1 = b2 ++ natChars k2) : b1 = b2 ∧ k1 = k2 := by
  simp only [refBases, List.mem_cons, List.not_mem_nil, or_false] at h1 h2
  rcases h1 with rfl | rfl | rfl | rfl <;> rcases h2 with rfl | rfl | rfl | rfl <;>
    first
      | exact ⟨rfl, natChars_inj (List.append_cancel_left h)⟩
      | exact (ne_of_not_prefixes h (by decide) (by decide)).elim

/-- A fixed-base allocator name is never equal to a modal choice-variable name. -/
theorem refBase_ne_choiceName {b : List Char} (hb : b ∈ refBases) (k i k2 : Nat) :
    b ++ natChars k ≠ choiceBase ++ natChars i ++ natChars k2 := by
  intro h
  rw [List.append_assoc] at h
  simp only [refBases, List.mem_cons, List.not_mem_nil, or_false] at hb
  obtain ⟨c, rest, hc, hdig⟩ := natChars_head_digit i
  rcases hb with rfl | rfl | rfl | rfl
  · exact ne_of_not_prefixes h (by decide) (by decide)
  · exact ne_of_not_prefixes h (by decide) (by decide)
  · exact ne_of_not_prefixes h (by decide) (by decide)
  · have hs : (['C', 'h', 'o', 'i', 'c', 'e', 's'] : List Char) = choiceBase ++ ['s'] := by decide
    rw [hs, List.append_assoc] at h
    have h2 := List.append_cancel_left h
    rw [hc] at h2
    simp only [List.cons_append, List.singleton_append, List.cons.injEq] at h2
    have : ('s' : Char).isDigit = true := h2.1 ▸ hdig
    exact absurd this (by decide)

/-- Claim C3 (code bug): compiling `c3Text` emits the SVar name `Choice1112`
twice — once as block 1's eleventh choice (base `Choice11`, counter 12) and
once as the last block's first choice (base `Choice1`, counter 112) — and the
two rendered `SVar:` lines are identical, so the emitted SVar names of this
card are not pairwise distinct. -/
theorem claim3_svar_name_collision :
    ((parseAbilities initPState c3Text).2.2.countP
        (fun l => l == "SVar:Choice1112:Draw | Defined$ You | NumCards$ 1".data)) = 2 ∧
    ((parseAbilities initPState c3Text).1.svarLines.countP
        (fun p => p.1 == "Choice1112".data)) = 2 := by
  constructor <;> rfl

/-- Claim C4: compiling `"Whenever this creature attacks, you gain 1 life."`
produces exactly one ability line — a `T:` line with trigger mode `Attacks` —
and exactly one support-variable line, equal to
`SVar:Effect1:GainLife | Defined$ You | LifeAmount$ 1`. -/
theorem claim4_attacks_scenario :
    (parseAbilities initPState c4Text).2.1 = [c4TLine] ∧
    "T:".data.isPrefixOf c4TLine = true ∧
    containsSub c4TLine "Mode$ Attacks".data = true ∧
    (parseAbilities initPState c4Text).2.2
      = ["SVar:Effect1:GainLife | Defined$ You | LifeAmount$ 1".data] := by
  refine ⟨by rfl, by rfl, by rfl, by rfl⟩

/-- Claim C5 (code bug): the spec expects one `T:` line with phase `Upkeep` and a
`LoseLife` SVar with amount 2, but the compilation emits nothing at all: the
effect resolver's life-loss rule requires the substring `loses`, which the
clause `you lose 2 life` does not contain, so the effect is unresolved and the
whole block is dropped (the counter is still advanced for the allocated but
unused `Effect1` name). -/
theorem claim5_upkeep_lose_life_dropped :
    (parseAbilities initPState c5Text).2 = ([], []) ∧
    parseEffectToAbility "you lose 2 life".data = none ∧
    (parseAbilities initPState c5Text).1.svarCounter = 1 := by
  refine ⟨by rfl, by rfl, by rfl⟩

/-- Claim C6 counterexample: `"This creature likes pie."` does not yield zero
ability lines, as the claim states — it matches the static-keyword dispatch
rule through the substring `is ` of `This ` and emits one generic
`S:Mode$ Continuous` line. -/
theorem claim6_counterexample :
    (parseAbilities initPState c6PieText).2.1
      = ["S:Mode$ Continuous | Description$ This creature likes pie.".data] ∧
    containsSub c6PieText "is ".data = true := by
  refine ⟨by rfl, by rfl⟩

/-- Claim C6 (amended): a text matching no recognizable pattern compiles to zero
ability lines and zero SVar lines, and the card's output is just the `Name:`
line and an `Oracle:` line carrying the decoded input verbatim; the spec's
example `"This creature likes pie."` is not such a text (it yields one
`S:` line). -/
theorem claim6_drop_safety :
    (parseAbilities initPState c6Patternless).2 = ([], []) ∧
    convertCardLines ⟨"Blorp".data, false, [], [], [], [], c6Patternless⟩
      = some ["Name:Blorp".data, ("Oracle:".data ++ c6Patternless)] ∧
    (parseAbilities initPState c6PieText).2
      = (["S:Mode$ Continuous | Description$ This creature likes pie.".data], []) := by
  refine ⟨by rfl, by rfl, by rfl⟩

/-- Claim C1 counterexample: for this modal block the aggregate SVar definition
`SVar:Choices1:Choice12,Choice23` references the support-variable name
`Choice12`, but no `SVar:Choice12:` line is ever defined (the first choice's
effect clause does not resolve, yet its name is still listed), so a referenced
name appears zero times as a definition and the block is not dropped whole. -/
theorem claim1_counterexample :
    (parseAbilities initPState c1CexText).2.2
      = ["SVar:Choice23:GainLife | Defined$ You | LifeAmount$ 1".data,
         "SVar:Choices1:Choice12,Choice23".data] ∧
    containsSub "SVar:Choices1:Choice12,Choice23".data "Choice12".data = true ∧
    ((parseAbilities initPState c1CexText).1.svarLines.countP
        (fun p => p.1 == "Choice12".data)) = 0 := by
  refine ⟨by rfl, by rfl, by rfl⟩

/-- Claim C10 counterexample: the oracle line is not the verbatim decoded rules
text with only line breaks escaped — `escape_forge_text` also replaces every em
dash by a hyphen, so the card with text `a—b` ends in `Oracle:a-b`, not
`Oracle:a—b`. -/
theorem claim10_counterexample :
    convertCardLines c10Card = some ["Name:A".data, "Oracle:a-b".data] ∧
    decodeEntities "a—b".data = "a—b".data ∧
    "Oracle:a-b".data ≠ "Oracle:".data ++ "a—b".data := by
  refine ⟨by rfl, by rfl, by decide⟩

/-- Claim C2: the returned ability lines and SVar lines of `parse_abilities`
do not depend on the parser state left over from any earlier compilation pass,
because the empty-text path returns constants and the nonempty path resets the
line buffers and the counter before doing anything; hence two passes over the
same rules text give byte-identical output. -/
theorem claim2_determinism (s1 s2 : PState) (text : List Char) :
    (parseAbilities s1 text).2 = (parseAbilities s2 text).2 := by
  by_cases h : text = [] <;> simp [parseAbilities, h]

/-- Claim C7: the source dispatch of `_parse_ability_block` assigns to every
block exactly the category given by the spec's ordered decision list — the
first matching rule of the eight, in the spec's order, with no later rule
firing once an earlier one matched. -/
theorem claim7_classifier_decision_list (t : List Char) :
    kindToSpec (classifyBlock t) = specClassify t := by
  unfold classifyBlock specClassify specDecisionList
  simp only [List.findSome?]
  repeat' split
  all_goals simp_all [kindToSpec]

/-- Claim C9 counterexample: the effect resolver extracts 5 (the first integer
followed by the kind keyword `life`), not the clause's first integer literal 3,
so the magnitude is not "the first integer literal in the clause". -/
theorem claim9_counterexample :
    parseEffectToAbility c9Text = some "GainLife | Defined$ You | LifeAmount$ 5".data ∧
    extractNumber c9Text "life".data = "5".data ∧
    firstIntLit c9Text = some "3".data ∧
    "5".data ≠ "3".data := by
  refine ⟨by rfl, by rfl, by rfl, by decide⟩

theorem drop_takeWhile_length (p : Char → Bool) (l : List Char) :
    l.drop (l.takeWhile p).length = l.dropWhile p := by
  induction l with
  | nil => rfl
  | cons c t ih =>
    by_cases h : p c
    · simp [List.takeWhile_cons, List.dropWhile_cons, h, ih]
    · simp [List.takeWhile_cons, List.dropWhile_cons, h]

theorem numAt_cons_digit {c : Char} (hc : c.isDigit = true) (rest kw : List Char) :
    numAt (c :: rest) kw =
      (if kw.isEmpty ||
          (decide (1 ≤ wsCount (rest.dropWhile Char.isDigit)) &&
            kw.isPrefixOf ((rest.dropWhile Char.isDigit).drop
              (wsCount (rest.dropWhile Char.isDigit)))) then
        some (c :: rest.takeWhile Char.isDigit)
      else none) := by
  have hd : (c :: rest).takeWhile Char.isDigit = c :: rest.takeWhile Char.isDigit := by
    simp [List.takeWhile_cons, hc]
  have hr : (c :: rest).drop (c :: rest.takeWhile Char.isDigit).length
      = rest.dropWhile Char.isDigit := by
    simp only [List.length_cons, List.drop_succ_cons]
    exact drop_takeWhile_length _ _
  unfold numAt
  rw [hd, hr]
  by_cases hk : kw.isEmpty <;>
    by_cases hcond : (decide (1 ≤ wsCount (rest.dropWhile Char.isDigit)) &&
      kw.isPrefixOf ((rest.dropWhile Char.isDigit).drop
        (wsCount (rest.dropWhile Char.isDigit)))) = true <;>
    simp_all

theorem numAt_cons_nondigit {c : Char} (hc : c.isDigit = false) (rest kw : List Char) :
    numAt (c :: rest) kw = none := by
  unfold numAt
  simp [List.takeWhile_cons, hc]

theorem searchNumKw_skip_run (kw : List Char) (hk : kw.isEmpty = false) :
    ∀ (rest : List Char),
      (decide (1 ≤ wsCount (rest.dropWhile Char.isDigit)) &&
        kw.isPrefixOf ((rest.dropWhile Char.isDigit).drop
          (wsCount (rest.dropWhile Char.isDigit)))) = false →
      searchNumKw rest kw = searchNumKw (rest.dropWhile Char.isDigit) kw
  | [], _ => by simp
  | x :: rest2, hfail => by
    by_cases hx : x.isDigit
    · have hdw : (x :: rest2).dropWhile Char.isDigit = rest2.dropWhile Char.isDigit := by
        simp [List.dropWhile_cons, hx]
      rw [hdw] at hfail ⊢
      have hnum : numAt (x :: rest2) kw = none := by
        rw [numAt_cons_digit hx]
        simp [hk, hfail]
      simp only [searchNumKw, hnum]
      exact searchNumKw_skip_run kw hk rest2 hfail
    · simp [List.dropWhile_cons, hx]

theorem searchNumKw_eq_firstKw (kw : List Char) :
    ∀ (n : Nat) (t : List Char), t.length ≤ n → searchNumKw t kw = firstKwNumber kw t
  | _, [], _ => by simp [searchNumKw, firstKwNumber]
  | 0, _ :: _, hlen => by simp at hlen
  | n + 1, c :: rest, hlen => by
    have hlen1 : rest.length ≤ n := by
      simp only [List.length_cons] at hlen
      omega
    by_cases hc : c.isDigit
    · by_cases hcond : (kw.isEmpty ||
          (decide (1 ≤ wsCount (rest.dropWhile Char.isDigit)) &&
            kw.isPrefixOf ((rest.dropWhile Char.isDigit).drop
              (wsCount (rest.dropWhile Char.isDigit))))) = true
      · simp only [searchNumKw, numAt_cons_digit hc, if_pos hcond, firstKwNumber, hc,
          if_true]
      · cases hk : kw.isEmpty with
        | true => rw [hk] at hcond; simp at hcond
        | false =>
          rw [hk] at hcond
          simp only [Bool.false_or] at hcond
          have hfail : (decide (1 ≤ wsCount (rest.dropWhile Char.isDigit)) &&
              kw.isPrefixOf ((rest.dropWhile Char.isDigit).drop
                (wsCount (rest.dropWhile Char.isDigit)))) = false := by
            revert hcond
            cases (decide (1 ≤ wsCount (rest.dropWhile Char.isDigit)) &&
              kw.isPrefixOf ((rest.dropWhile Char.isDigit).drop
                (wsCount (rest.dropWhile Char.isDigit)))) <;> simp
          have hnone : numAt (c :: rest) kw = none := by
            rw [numAt_cons_digit hc]
            simp [hk, hfail]
          have hlen2 : (rest.dropWhile Char.isDigit).length ≤ n := by
            have := (List.dropWhile_sublist (l := rest) Char.isDigit).length_le
            omega
          simp only [searchNumKw, hnone]
          rw [searchNumKw_skip_run kw hk rest hfail,
            searchNumKw_eq_firstKw kw n (rest.dropWhile Char.isDigit) hlen2]
          simp only [firstKwNumber, hc, if_true, hk, Bool.false_or, hfail,
            Bool.false_eq_true, if_false]
    · simp only [Bool.not_eq_true] at hc
      simp only [searchNumKw, numAt_cons_nondigit hc]
      rw [searchNumKw_eq_firstKw kw n rest hlen1]
      simp only [firstKwNumber, hc, Bool.false_eq_true, if_false]

/-- Claim C9 (amended): the magnitude extracted by the effect resolver is the
first integer literal that is immediately followed by whitespace and the
effect kind's keyword (the bare first integer literal when the kind supplies
no keyword), falling back to word-number detection (`a `/`one ` ↦ 1,
`two ` ↦ 2, `three ` ↦ 3) and defaulting to 1. -/
theorem claim9_magnitude (text kw : List Char) :
    extractNumber text kw = extractNumberSpec text kw := by
  unfold extractNumber extractNumberSpec
  rw [searchNumKw_eq_firstKw kw text.length text le_rfl]

theorem getLast_concat_chain (x : List Char) (ht ab sv : List (List Char)) (o : List Char) :
    ((x :: ht) ++ ab ++ sv ++ [o]).getLast? = some o := by
  have h1 : (x :: ht) ++ ab ++ sv ++ [o] = (((x :: ht) ++ ab) ++ sv) ++ [o] := by
    simp [List.append_assoc]
  rw [h1, List.getLast?_concat]

/-- Claim C10 (amended): for every card with a non-empty stripped name, the
compiled output's last line is the `Oracle:` line, whose content is the
stripped rules text with HTML entities decoded and then escaped by
`escape_forge_text`, which turns each internal line break into the literal
two-character sequence backslash-n and also replaces every em dash by a
hyphen; the line is the bare string `Oracle:` when the stripped rules text is
empty. -/
theorem claim10_oracle_last_line (card : CardElem) (h : pyStrip card.name ≠ []) :
    ∃ ls, convertCardLines card = some ls ∧
      ls.getLast? = some (if pyStrip card.text ≠ [] then
          "Oracle:".data ++ escapeForgeText (decodeEntities (pyStrip card.text))
        else "Oracle:".data) := by
  simp only [convertCardLines]
  rw [if_neg h]
  exact ⟨_, rfl, getLast_concat_chain _ _ _ _ _⟩

theorem claim10_witness :
    ∃ ls, convertCardLines c10Card = some ls ∧
      ls.getLast? = some (if pyStrip c10Card.text ≠ [] then
          "Oracle:".data ++ escapeForgeText (decodeEntities (pyStrip c10Card.text))
        else "Oracle:".data) :=
  claim10_oracle_last_line c10Card (by decide)

theorem joinInterleave_append_last (l s : List (List Char)) (b : List Char)
    (h : l.length = s.length) :
    joinInterleave (l ++ [b]) s = joinInterleave l s ++ b := by
  induction l generalizing s with
  | nil =>
    cases s with
    | nil => simp [joinInterleave]
    | cons y ys => simp at h
  | cons x xs ih =>
    cases s with
    | nil => simp at h
    | cons y ys =>
      simp only [List.cons_append, joinInterleave, List.length_cons, List.append_eq] at h ⊢
      rw [ih ys (by omega)]
      simp [List.append_assoc]

theorem joinInterleave_append_both (l s : List (List Char)) (b x : List Char)
    (h : l.length = s.length) :
    joinInterleave (l ++ [b]) (s ++ [x]) = joinInterleave l s ++ b ++ x := by
  induction l generalizing s with
  | nil =>
    cases s with
    | nil => simp [joinInterleave]
    | cons y ys => simp at h
  | cons y ys ih =>
    cases s with
    | nil => simp at h
    | cons z zs =>
      simp only [List.cons_append, joinInterleave, List.length_cons, List.append_eq] at h ⊢
      rw [ih zs (by omega)]
      simp [List.append_assoc]

theorem accText_block (c : Char) (cur : List Char) (bs ss : List (List Char)) :
    accText (c :: cur) bs ss = accText cur bs ss ++ [c] := by
  unfold accText
  simp [List.reverse_cons, List.append_assoc]

theorem accText_sepStart (c : Char) (cur : List Char) (bs ss : List (List Char))
    (h : bs.length = ss.length) :
    accText [] (cur.reverse :: bs) ([c] :: ss) = accText cur bs ss ++ [c] := by
  unfold accText
  simp only [List.reverse_cons, List.map_cons, List.reverse_nil, List.nil_append,
    List.append_nil]
  rw [joinInterleave_append_both _ _ _ _ (by simp [h])]
  try simp [List.append_assoc]

theorem accText_sepChar (c : Char) (S : List Char) (bs ssT : List (List Char))
    (h : bs.length = ssT.length + 1) :
    accText [] bs ((c :: S) :: ssT) = accText [] bs (S :: ssT) ++ [c] := by
  cases bs with
  | nil => simp at h
  | cons b bs2 =>
    unfold accText
    have hlen2 : (bs2.reverse).length = ((ssT.map List.reverse).reverse).length := by
      simp only [List.length_cons] at h
      simp only [List.length_reverse, List.length_map]
      omega
    simp only [List.reverse_cons, List.map_cons, List.append_nil]
    rw [joinInterleave_append_both _ _ _ _ hlen2, joinInterleave_append_both _ _ _ _ hlen2]
    simp [List.reverse_cons, List.append_assoc]

/-- Running the assembler over the scanner's token stream: the blocks
interleaved with the separators reproduce the consumed text followed by the
rest of the input, there is exactly one more block than separators, and every
separator is a nonempty whitespace run. -/
theorem splitRunSpec (s : List Char) : ∀ (inSep : Bool) (prev : Option Char)
    (cur : List Char) (bs ss : List (List Char)),
    bs.length = ss.length →
    (inSep = true → cur = [] ∧ ss ≠ []) →
    (∀ x ∈ ss, x ≠ [] ∧ x.all isPySpace = true) →
    joinInterleave (splitAsm (splitTok inSep prev s) cur bs ss).1
        (splitAsm (splitTok inSep prev s) cur bs ss).2
      = accText cur bs ss ++ s
    ∧ (splitAsm (splitTok inSep prev s) cur bs ss).1.length
      = (splitAsm (splitTok inSep prev s) cur bs ss).2.length + 1
    ∧ ∀ x ∈ (splitAsm (splitTok inSep prev s) cur bs ss).2,
        x ≠ [] ∧ x.all isPySpace = true := by
  induction s with
  | nil =>
    intro inSep prev cur bs ss hlen _ hss
    have ht : splitTok inSep prev [] = [] := by cases inSep <;> rfl
    rw [ht]
    simp only [splitAsm]
    refine ⟨?_, by simp [hlen], ?_⟩
    · rw [List.reverse_cons, joinInterleave_append_last _ _ _ (by simp [hlen])]
      simp [accText]
    · intro x hx
      rw [List.mem_reverse, List.mem_map] at hx
      obtain ⟨y, hy, rfl⟩ := hx
      refine ⟨by simpa using (hss y hy).1, by rw [List.all_reverse]; exact (hss y hy).2⟩
  | cons c rest ih =>
    intro inSep prev cur bs ss hlen hsep hss
    cases inSep with
    | false =>
      simp only [splitTok]
      split_ifs with hC
      · have hws : isPySpace c = true := by
          simp only [Bool.and_eq_true] at hC
          exact hC.1.2
        have hss2 : ∀ x ∈ ([c] :: ss), x ≠ [] ∧ x.all isPySpace = true := by
          intro x hx
          rcases List.mem_cons.mp hx with rfl | hx2
          · exact ⟨by simp, by simp [hws]⟩
          · exact hss x hx2
        simp only [splitAsm]
        obtain ⟨h1, h2, h3⟩ := ih true (some c) [] (cur.reverse :: bs) ([c] :: ss)
          (by simp [hlen]) (fun _ => ⟨rfl, by simp⟩) hss2
        refine ⟨?_, h2, h3⟩
        rw [h1, accText_sepStart c cur bs ss hlen]
        simp [List.append_assoc]
      · simp only [splitAsm]
        obtain ⟨h1, h2, h3⟩ := ih false (some c) (c :: cur) bs ss hlen (by simp) hss
        refine ⟨?_, h2, h3⟩
        rw [h1, accText_block]
        simp [List.append_assoc]
    | true =>
      obtain ⟨hcur, hne⟩ := hsep rfl
      subst hcur
      cases ss with
      | nil => exact absurd rfl hne
      | cons S ssT =>
        simp only [splitTok]
        split_ifs with hc
        · have hss2 : ∀ x ∈ ((c :: S) :: ssT), x ≠ [] ∧ x.all isPySpace = true := by
            intro x hx
            rcases List.mem_cons.mp hx with rfl | hx2
            · exact ⟨by simp, by simp [hc, (hss S (by simp)).2]⟩
            · exact hss x (by simp [hx2])
          simp only [splitAsm]
          obtain ⟨h1, h2, h3⟩ := ih true (some c) [] bs ((c :: S) :: ssT)
            (by simpa using hlen) (fun _ => ⟨rfl, by simp⟩) hss2
          refine ⟨?_, h2, h3⟩
          rw [h1, accText_sepChar c S bs ssT (by simpa using hlen)]
          simp [List.append_assoc]
        · simp only [splitAsm]
          obtain ⟨h1, h2, h3⟩ := ih false (some c) [c] bs (S :: ssT) hlen (by simp) hss
          refine ⟨?_, h2, h3⟩
          rw [h1, accText_block c [] bs (S :: ssT)]
          simp [List.append_assoc]

theorem containsSub_spec (s pat : List Char) : containsSub s pat = true ↔ pat <:+: s := by
  induction s with
  | nil => simp [containsSub, List.isEmpty_iff, List.infix_nil]
  | cons c t ih =>
    simp only [containsSub, Bool.or_eq_true, List.isPrefixOf_iff_prefix, ih,
      List.infix_cons_iff]

theorem replaceSubGo_id (pat rep : List Char) :
    ∀ (s : List Char) (fuel : Nat), s.length ≤ fuel →
      containsSub s pat = false → replaceSubGo pat rep fuel s = s := by
  intro s
  induction s with
  | nil => intro fuel _ _; cases fuel <;> rfl
  | cons c t ih =>
    intro fuel hf hc
    cases fuel with
    | zero => rfl
    | succ f =>
      simp only [containsSub, Bool.or_eq_false_iff] at hc
      simp only [replaceSubGo, hc.1, Bool.false_eq_true, if_false]
      rw [ih f (by simp only [List.length_cons] at hf; omega) hc.2]

theorem replaceSub_id (pat rep s : List Char) (h : containsSub s pat = false) :
    replaceSub pat rep s = s := by
  unfold replaceSub
  split
  · rfl
  · exact replaceSubGo_id pat rep s s.length le_rfl h

theorem joinInterleave_mem_infix (bs : List (List Char)) : ∀ (ss : List (List Char))
    (b : List Char), b ∈ bs → bs.length = ss.length + 1 →
    b <:+: joinInterleave bs ss := by
  induction bs with
  | nil => intro ss b hmem; cases hmem
  | cons x bt ih =>
    intro ss b hmem hlen
    cases ss with
    | nil =>
      simp only [List.length_cons, List.length_nil] at hlen
      have hbt : bt = [] := List.length_eq_zero.mp (by omega)
      subst hbt
      simp only [List.mem_singleton] at hmem
      subst hmem
      exact List.infix_refl _
    | cons S st =>
      rcases List.mem_cons.mp hmem with rfl | hb
      · exact ⟨[], S ++ joinInterleave bt st, by simp [joinInterleave, List.append_assoc]⟩
      · have hin : b <:+: joinInterleave bt st := ih st b hb (by simpa using hlen)
        exact hin.trans ⟨x ++ S, [], by simp [joinInterleave, List.append_assoc]⟩

theorem map_id_of_forall (f : List Char → List Char) :
    ∀ (l : List (List Char)), (∀ x ∈ l, f x = x) → l.map f = l
  | [], _ => rfl
  | x :: t, h => by
    simp only [List.map_cons, h x (by simp)]
    rw [map_id_of_forall f t (fun y hy => h y (by simp [hy]))]

/-- Claim C8 (amended): the blocks returned by the segmenter, interleaved with
the whitespace separators the sentence split consumed, reconstruct the
marker-normalized text; there is exactly one more block than separators, each
separator is a nonempty whitespace run, and when the text contains neither a
line break nor the literal marker string, the restored blocks interleaved with
those separators reconstruct the original text.  Bare concatenation of the
blocks drops exactly the separator whitespace. -/
theorem claim8_coverage (t : List Char) :
    joinInterleave (splitBlocksRaw t).1 (splitBlocksRaw t).2
        = replaceSub "\n".data newlineMarker t
    ∧ (splitBlocksRaw t).1.length = (splitBlocksRaw t).2.length + 1
    ∧ ((splitBlocksRaw t).2.all fun x => !x.isEmpty && x.all isPySpace) = true
    ∧ (containsSub t "\n".data = false → containsSub t newlineMarker = false →
        joinInterleave (splitAbilityBlocks t) (splitBlocksRaw t).2 = t) := by
  obtain ⟨h1, h2, h3⟩ := splitRunSpec (replaceSub "\n".data newlineMarker t) false none [] [] []
    rfl (by simp) (by simp)
  have hacc : accText [] [] [] = ([] : List Char) := rfl
  rw [hacc, List.nil_append] at h1
  have h1R : joinInterleave (splitBlocksRaw t).1 (splitBlocksRaw t).2
      = replaceSub "\n".data newlineMarker t := h1
  have h2R : (splitBlocksRaw t).1.length = (splitBlocksRaw t).2.length + 1 := h2
  have h3R : ∀ x ∈ (splitBlocksRaw t).2, x ≠ [] ∧ x.all isPySpace = true := h3
  refine ⟨h1R, h2R, ?_, ?_⟩
  · rw [List.all_eq_true]
    intro x hx
    obtain ⟨hne, hall⟩ := h3R x hx
    simp [hall, List.isEmpty_iff, hne]
  · intro hnl hmk
    have hmt : replaceSub "\n".data newlineMarker t = t := replaceSub_id _ _ _ hnl
    rw [hmt] at h1R
    have hmap : (splitBlocksRaw t).1.map (replaceSub newlineMarker "\n".data)
        = (splitBlocksRaw t).1 := by
      apply map_id_of_forall
      intro b hb
      have hinf : b <:+: t := h1R ▸ joinInterleave_mem_infix _ _ b hb h2R
      have hfree : containsSub b newlineMarker = false := by
        rcases Bool.eq_false_or_eq_true (containsSub b newlineMarker) with hT | hF
        · have hmt2 : newlineMarker <:+: t :=
            ((containsSub_spec b newlineMarker).mp hT).trans hinf
          rw [(containsSub_spec t newlineMarker).mpr hmt2] at hmk
          exact absurd hmk (by simp)
        · exact hF
      exact replaceSub_id _ _ _ hfree
    show joinInterleave ((splitBlocksRaw t).1.map (replaceSub newlineMarker "\n".data))
        (splitBlocksRaw t).2 = t
    rw [hmap]
    exact h1R

theorem claim8_coverage_witness :
    joinInterleave (splitAbilityBlocks "Foo. Bar".data) (splitBlocksRaw "Foo. Bar".data).2
      = "Foo. Bar".data :=
  (claim8_coverage "Foo. Bar".data).2.2.2 (by decide) (by decide)

/-- Claim C8, original wording refuted: on the text `Foo. Bar` the segmenter
returns the blocks `Foo.` and `Bar`, and their bare concatenation is not the
original text — the inter-sentence whitespace consumed by the split is gone. -/
theorem claim8_counterexample :
    splitAbilityBlocks "Foo. Bar".data = ["Foo.".data, "Bar".data]
    ∧ joinWith [] (splitAbilityBlocks "Foo. Bar".data) ≠ "Foo. Bar".data := by
  exact ⟨rfl, by decide⟩

theorem nameShape_mono {c c2 : Nat} (h : c ≤ c2) {n : List Char}
    (hn : NameShape c n) : NameShape c2 n := by
  obtain ⟨k, h1, h2, h3⟩ := hn
  exact ⟨k, h1, by omega, h3⟩

theorem refShape_mono {c c2 : Nat} (h : c ≤ c2) {r : List Char}
    (hr : RefShape c r) : RefShape c2 r := by
  obtain ⟨b, hb, k, h1, h2, h3⟩ := hr
  exact ⟨b, hb, k, h1, by omega, h3⟩

theorem refShape_ne_refName {c : Nat} {r : List Char} (h : RefShape c r)
    {b : List Char} (hb : b ∈ refBases) {k : Nat} (hk : c < k) :
    r ≠ b ++ natChars k := by
  obtain ⟨b2, hb2, k2, h1, h2, rfl⟩ := h
  intro he
  obtain ⟨-, hkk⟩ := refBase_name_inj hb2 hb he
  omega

theorem refShape_ne_choice {c : Nat} {r : List Char} (h : RefShape c r)
    (j k : Nat) : r ≠ (choiceBase ++ natChars j) ++ natChars k := by
  obtain ⟨b, hb, k2, h1, h2, rfl⟩ := h
  intro he
  exact refBase_ne_choiceName hb k2 j k (he.trans (List.append_assoc _ _ _))

theorem nameShape_ne_fresh {c : Nat} {n : List Char} (h : NameShape c n)
    {b : List Char} (hb : b ∈ refBases) {k : Nat} (hk : c < k) :
    n ≠ b ++ natChars k := by
  obtain ⟨k2, h1, h2, hsh | hsh⟩ := h
  · obtain ⟨b2, hb2, rfl⟩ := hsh
    intro he
    obtain ⟨-, hkk⟩ := refBase_name_inj hb2 hb he
    omega
  · obtain ⟨j, rfl⟩ := hsh
    intro he
    exact refBase_ne_choiceName hb k j k2 (by rw [← he, List.append_assoc])

theorem nameCount_pushS (st : PState) (n body r : List Char) :
    nameCount (pushS st n body) r = nameCount st r + (if n = r then 1 else 0) := by
  unfold nameCount pushS
  rw [List.countP_append]
  simp [List.countP_cons]

theorem nameCount_eq_zero {st : PState} {r : List Char}
    (h : ∀ p ∈ st.svarLines, p.1 ≠ r) : nameCount st r = 0 := by
  unfold nameCount
  rw [List.countP_eq_zero]
  intro p hp
  simp [h p hp]

theorem inv_init : ParserInv initPState :=
  ⟨fun p hp => absurd hp (List.not_mem_nil p), fun a ha => absurd ha (List.not_mem_nil a)⟩

theorem inv_bump (st : PState) (hI : ParserInv st) :
    ParserInv { st with svarCounter := st.svarCounter + 1 } := by
  obtain ⟨hS, hA⟩ := hI
  refine ⟨fun p hp => nameShape_mono (Nat.le_succ _) (hS p hp), fun a ha r hr => ?_⟩
  obtain ⟨h1, h2⟩ := hA a ha r hr
  exact ⟨refShape_mono (Nat.le_succ _) h1, h2⟩

theorem inv_pushA0 (st : PState) (render : List Char) (hI : ParserInv st) :
    ParserInv (pushA st render []) := by
  obtain ⟨hS, hA⟩ := hI
  refine ⟨fun p hp => hS p hp, fun a ha r hr => ?_⟩
  simp only [pushA, List.mem_append, List.mem_singleton] at ha
  rcases ha with ha | rfl
  · exact hA a ha r hr
  · exact absurd hr (List.not_mem_nil r)

theorem inv_pushA_ref (st : PState) (render r : List Char) (hI : ParserInv st)
    (hshape : RefShape st.svarCounter r) (hcount : nameCount st r = 1) :
    ParserInv (pushA st render [r]) := by
  obtain ⟨hS, hA⟩ := hI
  refine ⟨fun p hp => hS p hp, fun a ha r2 hr2 => ?_⟩
  simp only [pushA, List.mem_append, List.mem_singleton] at ha
  rcases ha with ha | rfl
  · exact hA a ha r2 hr2
  · simp only [List.mem_singleton] at hr2
    subst hr2
    exact ⟨hshape, hcount⟩

/-- Allocating a fixed-base name, defining it, and emitting one ability line
referencing it — the common tail of the trigger, periodic, upkeep and modal
trigger handlers — preserves the invariant. -/
theorem inv_effect_push (st : PState) (b body render : List Char)
    (hb : b ∈ refBases) (hI : ParserInv st) :
    ParserInv (pushA (pushS { st with svarCounter := st.svarCounter + 1 }
        (b ++ natChars (st.svarCounter + 1)) body)
      render [b ++ natChars (st.svarCounter + 1)]) := by
  obtain ⟨hS, hA⟩ := hI
  have hfresh : ∀ p ∈ st.svarLines, p.1 ≠ b ++ natChars (st.svarCounter + 1) :=
    fun p hp => nameShape_ne_fresh (hS p hp) hb (by omega)
  constructor
  · intro p hp
    simp only [pushA, pushS, List.mem_append, List.mem_singleton] at hp
    rcases hp with hp | rfl
    · exact nameShape_mono (Nat.le_succ _) (hS p hp)
    · exact ⟨st.svarCounter + 1, by omega, le_rfl, Or.inl ⟨b, hb, rfl⟩⟩
  · intro a ha r hr
    simp only [pushA, pushS, List.mem_append, List.mem_singleton] at ha
    have hcn : ∀ r2, nameCount (pushA (pushS { st with svarCounter := st.svarCounter + 1 }
        (b ++ natChars (st.svarCounter + 1)) body)
        render [b ++ natChars (st.svarCounter + 1)]) r2
        = nameCount st r2 + (if b ++ natChars (st.svarCounter + 1) = r2 then 1 else 0) :=
      fun r2 => nameCount_pushS { st with svarCounter := st.svarCounter + 1 } _ body r2
    rcases ha with ha | rfl
    · obtain ⟨h1, h2⟩ := hA a ha r hr
      refine ⟨refShape_mono (Nat.le_succ _) h1, ?_⟩
      rw [hcn r, if_neg (fun he => refShape_ne_refName h1 hb (by omega) he.symm), h2]
    · simp only [List.mem_singleton] at hr
      subst hr
      refine ⟨⟨b, hb, st.svarCounter + 1, by omega, le_rfl, rfl⟩, ?_⟩
      rw [hcn _, if_pos rfl, nameCount_eq_zero hfresh]

theorem inv_parseTrigger (kw : List Char) (st : PState) (t : List Char)
    (hI : ParserInv st) : ParserInv (parseTriggerAbility kw st t) := by
  simp only [parseTriggerAbility]
  rcases hm : matchKwTrigger kw t with - | ⟨g1, g2⟩ <;> simp only [hm]
  · exact hI
  · rcases het : extractTrigger (kw ++ " ".data ++ pyStrip g1) with - | trigLine <;>
      simp only [het, allocName]
    · exact hI
    · rcases heff : parseEffectToAbility (pyStrip g2) with - | effect <;> simp only [heff]
      · exact inv_bump st hI
      · exact inv_effect_push st "Effect".data effect _ (by simp [refBases]) hI

theorem inv_parseBeginning (st : PState) (t : List Char) (hI : ParserInv st) :
    ParserInv (parseBeginningAbility st t) := by
  simp only [parseBeginningAbility]
  rcases hm : matchBeginning t with - | ⟨g1, g2⟩ <;> simp only [hm]
  · exact hI
  · rcases hph : phaseMap.findSome?
        (fun p => if containsSub (lowerStr (pyStrip g1)) p.1 then some p.2 else none)
      with - | phase <;> simp only [hph, allocName]
    · exact hI
    · rcases heff : parseEffectToAbility (pyStrip g2) with - | effect <;> simp only [heff]
      · exact inv_bump st hI
      · exact inv_effect_push st "Effect".data effect _ (by simp [refBases]) hI

theorem inv_parseUpkeep (st : PState) (t : List Char) (hI : ParserInv st) :
    ParserInv (parseUpkeepAbility st t) := by
  simp only [parseUpkeepAbility]
  rcases hm : searchUpkeep t with - | g1 <;> simp only [hm, allocName]
  · exact hI
  · rcases heff : parseEffectToAbility (pyStrip g1) with - | effect <;> simp only [heff]
    · exact inv_bump st hI
    · exact inv_effect_push st "UpkeepEffect".data effect _ (by simp [refBases]) hI

theorem inv_parseActivated (st : PState) (t : List Char) (hI : ParserInv st) :
    ParserInv (parseActivatedAbility st t) := by
  simp only [parseActivatedAbility]
  rcases hm : matchActivated t with - | ⟨costStr, g2⟩ <;> simp only [hm]
  · exact hI
  · rcases heff : parseEffectToAbility (pyStrip g2) with - | effect <;> simp only [heff]
    · exact hI
    · split_ifs with hc
      · exact hI
      · exact inv_pushA0 st _ hI

theorem inv_parsePump (st : PState) (t : List Char) (hI : ParserInv st) :
    ParserInv (parsePumpStatic st t) := by
  simp only [parsePumpStatic]
  rcases hm : pumpSearch t with - | ⟨power, tough⟩ <;> simp only [hm]
  · exact hI
  · exact inv_pushA0 st _ hI

theorem inv_parseKeywordStatic (st : PState) (t : List Char) (hI : ParserInv st) :
    ParserInv (parseKeywordStatic st t) := by
  simp only [parseKeywordStatic]
  split_ifs with h
  · exact hI
  all_goals exact inv_pushA0 st _ hI

theorem inv_parseStatic (st : PState) (t : List Char) (hI : ParserInv st) :
    ParserInv (parseStaticAbility st t) := by
  simp only [parseStaticAbility]
  split_ifs with h1 h2 h3
  · exact inv_parsePump st t hI
  · exact inv_pushA0 st _ hI
  · exact inv_parseKeywordStatic st t hI
  · exact inv_pushA0 st _ hI

theorem inv_parseSpellEffect (st : PState) (t : List Char) (hI : ParserInv st) :
    ParserInv (parseSpellEffect st t) := by
  simp only [parseSpellEffect]
  rcases heff : parseEffectToAbility t with - | effect <;> simp only [heff]
  · exact hI
  · exact inv_pushA0 st _ hI

/-- What the per-choice loop does to the state: it appends only choice-shaped
`SVar:` entries, only raises the counter, and leaves the ability lines alone. -/
theorem modalLoop_spec (cs : List (List Char)) : ∀ (st : PState) (i : Nat),
    ∃ new, (modalChoicesLoop st i cs).1.svarLines = st.svarLines ++ new
      ∧ (∀ p ∈ new, ∃ j k, 1 ≤ k ∧ k ≤ (modalChoicesLoop st i cs).1.svarCounter ∧
          p.1 = (choiceBase ++ natChars j) ++ natChars k)
      ∧ st.svarCounter ≤ (modalChoicesLoop st i cs).1.svarCounter
      ∧ (modalChoicesLoop st i cs).1.abilityLines = st.abilityLines := by
  induction cs with
  | nil =>
    intro st i
    exact ⟨[], by simp [modalChoicesLoop], by simp, le_rfl, rfl⟩
  | cons c cs ih =>
    intro st i
    simp only [modalChoicesLoop, parseModalChoice, allocName, ite_self]
    rcases hab : parseEffectToAbility c with - | ab <;> simp only [hab]
    · obtain ⟨new, h1, h2, h3, h4⟩ := ih { st with svarCounter := st.svarCounter + 1 } (i + 1)
      exact ⟨new, h1, h2, le_trans (Nat.le_succ _) h3, h4⟩
    · obtain ⟨new, h1, h2, h3, h4⟩ :=
        ih (pushS { st with svarCounter := st.svarCounter + 1 }
          ((choiceBase ++ natChars i) ++ natChars (st.svarCounter + 1)) ab) (i + 1)
      refine ⟨((choiceBase ++ natChars i) ++ natChars (st.svarCounter + 1),
          "SVar:".data ++ ((choiceBase ++ natChars i) ++ natChars (st.svarCounter + 1)) ++
            ":".data ++ ab) :: new, ?_, ?_, ?_, h4⟩
      · rw [h1]
        simp [pushS, List.append_assoc]
      · intro p hp
        rcases List.mem_cons.mp hp with rfl | hp2
        · exact ⟨i, st.svarCounter + 1, by omega, by simpa [pushS] using h3, rfl⟩
        · exact h2 p hp2
      · have : st.svarCounter + 1 ≤ (modalChoicesLoop (pushS { st with
            svarCounter := st.svarCounter + 1 }
            ((choiceBase ++ natChars i) ++ natChars (st.svarCounter + 1)) ab)
            (i + 1) cs).1.svarCounter := by simpa [pushS] using h3
        omega

/-- After the loop, defining the aggregate `Choices` variable preserves the
invariant, and the aggregate's own name is well-shaped and defined exactly
once. -/
theorem inv_modal_core (st st2 : PState) (new : List (List Char × List Char))
    (agg : List Char) (hI : ParserInv st)
    (hlines : st2.svarLines = st.svarLines ++ new)
    (hnew : ∀ p ∈ new, ∃ j k, 1 ≤ k ∧ k ≤ st2.svarCounter ∧
        p.1 = (choiceBase ++ natChars j) ++ natChars k)
    (hmono : st.svarCounter + 1 ≤ st2.svarCounter)
    (hab : st2.abilityLines = st.abilityLines) :
    ParserInv (pushS st2 ("Choices".data ++ natChars (st.svarCounter + 1)) agg)
    ∧ RefShape (pushS st2 ("Choices".data ++ natChars (st.svarCounter + 1)) agg).svarCounter
        ("Choices".data ++ natChars (st.svarCounter + 1))
    ∧ nameCount (pushS st2 ("Choices".data ++ natChars (st.svarCounter + 1)) agg)
        ("Choices".data ++ natChars (st.svarCounter + 1)) = 1 := by
  obtain ⟨hS, hA⟩ := hI
  have hCho : "Choices".data ∈ refBases := by simp [refBases]
  have hps : (pushS st2 ("Choices".data ++ natChars (st.svarCounter + 1)) agg).svarCounter
      = st2.svarCounter := rfl
  have hfresh : ∀ p ∈ st2.svarLines,
      p.1 ≠ "Choices".data ++ natChars (st.svarCounter + 1) := by
    intro p hp
    rw [hlines] at hp
    rcases List.mem_append.mp hp with hp | hp
    · exact nameShape_ne_fresh (hS p hp) hCho (by omega)
    · obtain ⟨j, k, h1, h2, hpe⟩ := hnew p hp
      rw [hpe]
      intro he
      exact refBase_ne_choiceName hCho (st.svarCounter + 1) j k
        (by rw [← he, List.append_assoc])
  refine ⟨⟨?_, ?_⟩, ?_, ?_⟩
  · intro p hp
    simp only [pushS, List.mem_append, List.mem_singleton] at hp
    rcases hp with hp | rfl
    · rw [hlines] at hp
      rcases List.mem_append.mp hp with hp | hp
      · exact nameShape_mono (by omega) (hS p hp)
      · obtain ⟨j, k, h1, h2, hpe⟩ := hnew p hp
        exact ⟨k, h1, h2, Or.inr ⟨j, hpe⟩⟩
    · exact ⟨st.svarCounter + 1, by omega, by omega, Or.inl ⟨"Choices".data, hCho, rfl⟩⟩
  · intro a ha r hr
    simp only [pushS] at ha
    rw [hab] at ha
    obtain ⟨hsh, hcn⟩ := hA a ha r hr
    have hct : nameCount st2 r = nameCount st r := by
      unfold nameCount
      rw [hlines, List.countP_append]
      have hz : new.countP (fun p => decide (p.1 = r)) = 0 := by
        rw [List.countP_eq_zero]
        intro p hp
        obtain ⟨j, k, h1, h2, hpe⟩ := hnew p hp
        simp only [decide_eq_true_eq]
        intro he
        exact refShape_ne_choice hsh j k (he.symm.trans hpe)
      omega
    refine ⟨refShape_mono (by omega) hsh, ?_⟩
    rw [nameCount_pushS,
      if_neg (fun he => refShape_ne_refName hsh hCho (by omega) he.symm), hct, hcn]
  · refine ⟨"Choices".data, hCho, st.svarCounter + 1, by omega, ?_, rfl⟩
    simp only [pushS]
    omega
  · rw [nameCount_pushS, if_pos rfl, nameCount_eq_zero hfresh]

/-- The invariant is preserved by the whole modal handler, stated over an
arbitrary prefix and choice list so that the handler's two computed values can
be abstracted. -/
theorem inv_modal_dispatch (st : PState) (t pfx : List Char)
    (choices : List (List Char)) (hI : ParserInv st) :
    ParserInv (if choices.isEmpty then parseSpellEffect st t
      else
        let charmNum := choices.length
        let (svarName, st1) := allocName st "Choices".data
        let lp := modalChoicesLoop st1 1 choices
        let st2 := lp.1
        let choiceSvars := lp.2
        let st3 := pushS st2 svarName (joinWith ",".data choiceSvars)
        if pfx ≠ [] && (containsSub pfx "Whenever".data || containsSub pfx "When".data ||
            containsSub pfx "At the beginning".data) then
          match extractTrigger pfx with
          | some trigLine =>
            let (svarExec, st4) := allocName st3 "CharmEffect".data
            let st5 := pushS st4 svarExec ("AB$ Charm | CharmNum$ ".data ++
              natChars charmNum ++ " | Choices$ ".data ++ svarName)
            pushA st5 ("T:".data ++ trigLine ++ " | Execute$ ".data ++ svarExec ++
              " | TriggerDescription$ ".data ++ t.take 80) [svarExec]
          | none => st3
        else
          pushA st3 ("A:SP$ Charm | CharmNum$ ".data ++ natChars charmNum ++
            " | Choices$ ".data ++ svarName ++ " | SpellDescription$ ".data ++
            t.take 100) [svarName]) := by
  obtain ⟨new, hlines, hnew, hmono, hab⟩ :=
    modalLoop_spec choices { st with svarCounter := st.svarCounter + 1 } 1
  obtain ⟨hI3, hsh3, hc3⟩ := inv_modal_core st
    (modalChoicesLoop { st with svarCounter := st.svarCounter + 1 } 1 choices).1 new
    (joinWith ",".data
      (modalChoicesLoop { st with svarCounter := st.svarCounter + 1 } 1 choices).2)
    hI hlines hnew hmono hab
  simp only [allocName]
  split_ifs with hemp hcond
  · exact inv_parseSpellEffect st t hI
  · rcases het : extractTrigger pfx with - | trigLine <;> simp only [het, allocName]
    · exact hI3
    · exact inv_effect_push _ "CharmEffect".data _ _ (by simp [refBases]) hI3
  · exact inv_pushA_ref _ _ _ hI3 hsh3 hc3

theorem inv_parseModal (st : PState) (t : List Char) (hI : ParserInv st) :
    ParserInv (parseModalAbility st t) := by
  unfold parseModalAbility
  exact inv_modal_dispatch st t _ _ hI

theorem inv_parseAbilityBlock (st : PState) (text : List Char) (hI : ParserInv st) :
    ParserInv (parseAbilityBlock st text) := by
  simp only [parseAbilityBlock]
  split_ifs with h
  · exact hI
  · rcases hk : classifyBlock (pyStrip text) with - | - | - | - | - | - | - | - <;>
      simp only [hk]
    · exact inv_parseModal st _ hI
    · exact inv_parseTrigger "Whenever".data st _ hI
    · exact inv_parseTrigger "When".data st _ hI
    · exact inv_parseBeginning st _ hI
    · exact inv_parseUpkeep st _ hI
    · exact inv_parseActivated st _ hI
    · exact inv_parseStatic st _ hI
    · exact inv_parseSpellEffect st _ hI

theorem inv_foldl : ∀ (blocks : List (List Char)) (st : PState), ParserInv st →
    ParserInv (List.foldl parseAbilityBlock st blocks)
  | [], _, hI => hI
  | b :: bs, st, hI => inv_foldl bs (parseAbilityBlock st b) (inv_parseAbilityBlock st b hI)

/-- Claim C1 (amended): in a fresh compilation pass, every support-variable
name referenced from an emitted `A:`/`T:`/`S:` ability line (the names fed into
its `Execute$`/`Choices$` arguments) is defined by exactly one `SVar:` line of
the same output; the modal aggregate `SVar:` definition, however, may reference
choice names that are never defined — when a choice's effect clause does not
resolve the block is kept, not dropped. -/
theorem claim1_ability_refs_defined (text : List Char) (a : ALine)
    (ha : a ∈ (parseAbilities initPState text).1.abilityLines)
    (r : List Char) (hr : r ∈ a.refs) :
    nameCount (parseAbilities initPState text).1 r = 1 := by
  have hInv : ParserInv (parseAbilities initPState text).1 := by
    unfold parseAbilities
    split
    · exact inv_init
    · exact inv_foldl (splitAbilityBlocks (pyStrip text)) initPState inv_init
  exact (hInv.2 a ha r hr).2

theorem claim1_refs_witness :
    nameCount (parseAbilities initPState c4Text).1 "Effect1".data = 1 :=
  claim1_ability_refs_defined c4Text ⟨c4TLine, ["Effect1".data]⟩
    (List.mem_cons_self _ _) "Effect1".data (List.mem_cons_self _ _)

end Mtg
